import Mathlib

/-!
# jiq.c, the just-in-queue module

A shallow embedding of `misc-modules/jiq.c`: the sampler `jiq_print`, the three
deferred producers built on it (work queue, tasklet, one-shot timer) and the
`/proc` show routines that arm them.

Kernel facilities the module calls but does not define are taken as parameters
(`Kernel`) or recorded as events (`Event`); the calling context a sampler run
observes (clock, preemption count, current task, processor) is a `Ctx`.
-/

set_option linter.unusedVariables false
set_option maxRecDepth 1000000

namespace Jiq

/-! ## Data model -/

/-- The part of `struct seq_file` the module touches. The declaration lives in
the kernel headers; `size` is the field `jiq_print` reads into `int size`
(taken as a value an `int` holds exactly) and `buf` is the sequence of chunks
written so far, one per `seq_printf` call. -/
structure seq_file where
  buf : List (List Char)
  size : Nat
deriving DecidableEq

/-- The `struct clientdata` of the module: the report file, the time of the
last sample (an `unsigned long`) and the re-arm delay (a `long`). -/
structure clientdata where
  sq_file : seq_file
  jiffies : Nat
  delay : Int
deriving DecidableEq

/-- What the module takes from the kernel headers: the chunk writer behind
`seq_printf`, the width of `unsigned long`, and the macros `PAGE_SIZE` and
`HZ`. -/
structure Kernel where
  seq_printf : seq_file → List Char → seq_file
  BITS_PER_LONG : Nat
  PAGE_SIZE : Nat
  HZ : Nat

/-- The environment one run of `jiq_print` samples: `jiffies`,
`preempt_count()`, `current->pid`, `smp_processor_id()` and `current->comm`. -/
structure Ctx where
  jiffies : Nat
  preempt_count : Int
  pid : Int
  cpu : Int
  comm : List Char
deriving DecidableEq

/-- Calls into the kernel that the module issues, in program order. The wait
queue is always `jiq_wait`, the work item `jiq_work`, the tasklet
`jiq_tasklet` and the timer `jiq_timer`. -/
inductive Event where
  | wake_up_interruptible
  | schedule_work
  | schedule_delayed_work (delay : Int)
  | tasklet_schedule
  | init_timer
  | add_timer (expires : Nat)
  | del_timer_sync
  | prepare_to_wait
  | schedule
  | finish_wait
  | interruptible_sleep_on
deriving DecidableEq

/-! ## Machine arithmetic and formatting -/

/-- The macro `LIMIT`, which is `PAGE_SIZE-128`; a page is never smaller than
128 bytes, so the subtraction does not wrap. -/
def LIMIT (K : Kernel) : Nat := K.PAGE_SIZE - 128

/-- Subtraction of two `unsigned long` values, `a - b` modulo `2^w`. -/
def usub (w a b : Nat) : Nat := (a % 2 ^ w + (2 ^ w - b % 2 ^ w)) % 2 ^ w

/-- The `long` that a `%li` conversion reads from an `unsigned long` argument. -/
def toSigned (w n : Nat) : Int :=
  if n % 2 ^ w < 2 ^ (w - 1) then (n % 2 ^ w : Nat) else ((n % 2 ^ w : Nat) : Int) - 2 ^ w

/-- A `%<width>i` or `%<width>li` conversion: decimal, right-justified with
blanks to at least `width` characters. -/
def fmt_d (width : Nat) (v : Int) : List Char :=
  let s := (Int.repr v).toList
  List.replicate (width - s.length) ' ' ++ s

/-- The header chunk, the literal of the first `seq_printf` in `jiq_print`. -/
def header : List Char := "    time  delta preempt   pid cpu command\n".toList

/-- The format `"%9li  %4li     %3i %5i %3i %s\n"` applied to its arguments. -/
def sample_line (j delta preempt pid cpu : Int) (comm : List Char) : List Char :=
  fmt_d 9 j ++ "  ".toList ++ fmt_d 4 delta ++ "     ".toList ++ fmt_d 3 preempt ++
    " ".toList ++ fmt_d 5 pid ++ " ".toList ++ fmt_d 3 cpu ++ " ".toList ++ comm ++ "\n".toList

/-- The chunk the second `seq_printf` of `jiq_print` writes when it runs in
context `c` with client data `data`: the arguments are `j`,
`j - data->jiffies`, `preempt_count()`, `current->pid`, `smp_processor_id()`
and `current->comm`. -/
def sample_text (K : Kernel) (c : Ctx) (data : clientdata) : List Char :=
  let j := c.jiffies % 2 ^ K.BITS_PER_LONG
  sample_line (toSigned K.BITS_PER_LONG j)
    (toSigned K.BITS_PER_LONG (usub K.BITS_PER_LONG j data.jiffies))
    c.preempt_count c.pid c.cpu c.comm

/-! ## The sampler and the producers -/

/-- Result of `jiq_print`: the returned `int`, the client data afterwards and
the kernel calls issued. -/
structure PrintResult where
  ret : Int
  data : clientdata
  events : List Event
deriving DecidableEq

/-- The function `jiq_print`: stop and wake the reader when the size read on
entry is above `LIMIT`; otherwise write the header if the size is zero, write
one sample line, store the time and ask to be rescheduled. -/
def jiq_print (K : Kernel) (c : Ctx) (data : clientdata) : PrintResult :=
  let file := data.sq_file
  let size := file.size
  let j := c.jiffies % 2 ^ K.BITS_PER_LONG
  if size > LIMIT K then
    { ret := 0, data := data, events := [Event.wake_up_interruptible] }
  else
    let file1 := if size = 0 then K.seq_printf file header else file
    let file2 := K.seq_printf file1 (sample_text K c data)
    { ret := 1, data := { data with sq_file := file2, jiffies := j }, events := [] }

/-- The function `jiq_print_wq`, the work-queue callback. -/
def jiq_print_wq (K : Kernel) (c : Ctx) (data : clientdata) : clientdata × List Event :=
  let r := jiq_print K c data
  if r.ret = 0 then (r.data, r.events)
  else if r.data.delay ≠ 0 then
    (r.data, r.events ++ [Event.schedule_delayed_work r.data.delay])
  else (r.data, r.events ++ [Event.schedule_work])

/-- The function `jiq_print_tasklet`, the tasklet callback. -/
def jiq_print_tasklet (K : Kernel) (c : Ctx) (data : clientdata) : clientdata × List Event :=
  let r := jiq_print K c data
  if r.ret ≠ 0 then (r.data, r.events ++ [Event.tasklet_schedule])
  else (r.data, r.events)

/-- The function `jiq_timedout`, the timer callback. -/
def jiq_timedout (K : Kernel) (c : Ctx) (data : clientdata) : clientdata × List Event :=
  let r := jiq_print K c data
  (r.data, r.events ++ [Event.wake_up_interruptible])

/-! ## Runs of the sampler -/

/-- The client data after the first `n` invocations of `jiq_print`, where
invocation number `k` (from zero) runs in context `env k`. -/
def jiq_run (K : Kernel) (env : Nat → Ctx) : Nat → clientdata → clientdata
  | 0, d => d
  | n + 1, d => (jiq_print K (env n) (jiq_run K env n d)).data

/-- The value invocation number `k` of a run returns. -/
def ret_at (K : Kernel) (env : Nat → Ctx) (d : clientdata) (k : Nat) : Int :=
  (jiq_print K (env k) (jiq_run K env k d)).ret

/-- The sample line invocation number `k` of a run formats. -/
def line_at (K : Kernel) (env : Nat → Ctx) (d : clientdata) (k : Nat) : List Char :=
  sample_text K (env k) (jiq_run K env k d)

/-- Whether a callback left `jiq_work` queued. -/
def work_queued (evs : List Event) : Bool :=
  evs.any fun e =>
    match e with
    | Event.schedule_work => true
    | Event.schedule_delayed_work _ => true
    | _ => false

/-- Whether a callback left `jiq_tasklet` scheduled. -/
def tasklet_queued (evs : List Event) : Bool :=
  evs.any fun e =>
    match e with
    | Event.tasklet_schedule => true
    | _ => false

/-- The kernel side of a deferred producer: run the callback, and run it again
for as long as it re-queued itself. Invocation number `k` runs in `env k`. The
result is the final client data with the events of each invocation; `none`
means the fuel ran out first. -/
def run_deferred (handler : Ctx → clientdata → clientdata × List Event)
    (queued : List Event → Bool) (env : Nat → Ctx) :
    Nat → Nat → clientdata → Option (clientdata × List (List Event))
  | 0, _, _ => none
  | fuel + 1, k, d =>
    let r := handler (env k) d
    if queued r.2 then
      match run_deferred handler queued env fuel (k + 1) r.1 with
      | none => none
      | some (d', tr) => some (d', r.2 :: tr)
    else some (r.1, [r.2])

/-- The work-queue producer, from its first execution to the one that stops. -/
def run_wq (K : Kernel) (env : Nat → Ctx) (fuel : Nat) (d : clientdata) :
    Option (clientdata × List (List Event)) :=
  run_deferred (jiq_print_wq K) work_queued env fuel 0 d

/-- The tasklet producer, from its first execution to the one that stops. -/
def run_tasklet (K : Kernel) (env : Nat → Ctx) (fuel : Nat) (d : clientdata) :
    Option (clientdata × List (List Event)) :=
  run_deferred (jiq_print_tasklet K) tasklet_queued env fuel 0 d

/-- An ideal chunk writer: the chunk is appended and the size grows by its
length. -/
def seq_append (m : seq_file) (s : List Char) : seq_file :=
  { buf := m.buf ++ [s], size := m.size + s.length }

/-- Every write appends its chunk to the buffer. -/
def Appends (pr : seq_file → List Char → seq_file) : Prop :=
  ∀ m s, (pr m s).buf = m.buf ++ [s]

/-- Every write grows the size by the bytes written. -/
def GrowsByBytes (pr : seq_file → List Char → seq_file) : Prop :=
  ∀ m s, (pr m s).size = m.size + s.length

/-- Every write of at least one byte grows the size by at least one. -/
def GrowsSome (pr : seq_file → List Char → seq_file) : Prop :=
  ∀ m s, s ≠ [] → m.size < (pr m s).size

/-! ## The show routines -/

/-- The function `jiqwq_show` up to the point where the reader sleeps in
`schedule()`. `delay` is the module parameter, `now` the value of `jiffies`
read for the initial time and `jiq_data` the global client data on entry. -/
def jiqwq_show_arm (K : Kernel) (delay : Int) (now : Nat) (file : seq_file)
    (jiq_data : clientdata) : clientdata × List Event :=
  ({ jiq_data with jiffies := now % 2 ^ K.BITS_PER_LONG, delay := 0, sq_file := file },
    [Event.prepare_to_wait, Event.schedule_work, Event.schedule])

/-- The function `jiqwqdelayed_show` up to the point where the reader sleeps in
`schedule()`. -/
def jiqwqdelayed_show_arm (K : Kernel) (delay : Int) (now : Nat) (file : seq_file)
    (jiq_data : clientdata) : clientdata × List Event :=
  ({ jiq_data with jiffies := now % 2 ^ K.BITS_PER_LONG, delay := delay, sq_file := file },
    [Event.prepare_to_wait, Event.schedule_delayed_work delay, Event.schedule])

/-- The function `jiqtasklet_show` up to the point where the reader sleeps in
`interruptible_sleep_on`. -/
def jiqtasklet_show_arm (K : Kernel) (delay : Int) (now : Nat) (file : seq_file)
    (jiq_data : clientdata) : clientdata × List Event :=
  ({ jiq_data with jiffies := now % 2 ^ K.BITS_PER_LONG, sq_file := file },
    [Event.tasklet_schedule, Event.interruptible_sleep_on])

/-- A whole work-queue session: `jiqwq_show` arms the work, the kernel runs
`jiq_print_wq` until it stops re-queuing itself, the reader wakes, finishes the
wait and returns 0. -/
def jiqwq_show (K : Kernel) (env : Nat → Ctx) (fuel : Nat) (delay : Int) (now : Nat)
    (file : seq_file) (jiq_data : clientdata) : Option (Int × clientdata × List Event) :=
  let a := jiqwq_show_arm K delay now file jiq_data
  match run_wq K env fuel a.1 with
  | none => none
  | some (d, tr) => some (0, d, a.2 ++ tr.flatten ++ [Event.finish_wait])

/-- A whole delayed work-queue session, as `jiqwq_show` with the first
execution and every re-arm delayed. -/
def jiqwqdelayed_show (K : Kernel) (env : Nat → Ctx) (fuel : Nat) (delay : Int) (now : Nat)
    (file : seq_file) (jiq_data : clientdata) : Option (Int × clientdata × List Event) :=
  let a := jiqwqdelayed_show_arm K delay now file jiq_data
  match run_wq K env fuel a.1 with
  | none => none
  | some (d, tr) => some (0, d, a.2 ++ tr.flatten ++ [Event.finish_wait])

/-- A whole tasklet session: `jiqtasklet_show` schedules the tasklet, the
kernel runs `jiq_print_tasklet` until it stops re-scheduling itself, the reader
wakes and returns 0. -/
def jiqtasklet_show (K : Kernel) (env : Nat → Ctx) (fuel : Nat) (delay : Int) (now : Nat)
    (file : seq_file) (jiq_data : clientdata) : Option (Int × clientdata × List Event) :=
  let a := jiqtasklet_show_arm K delay now file jiq_data
  match run_tasklet K env fuel a.1 with
  | none => none
  | some (d, tr) => some (0, d, a.2 ++ tr.flatten)

/-! ## The timer session as a transition system -/

/-- Where the reader stands in `jiqruntimer_show` once the timer is armed:
before `interruptible_sleep_on`, asleep in it, woken and about to call
`del_timer_sync`, or returned. -/
inductive Pc where
  | armed
  | sleeping
  | woken
  | returned
deriving DecidableEq

/-- State of a timer session: the global client data, whether `jiq_timer` is
pending, the reader's position and the kernel calls made so far. -/
structure TimerSys where
  data : clientdata
  pending : Bool
  pc : Pc
  trace : List Event
deriving DecidableEq

/-- The function `jiqruntimer_show` through `add_timer`. `now` is the value of
`jiffies` stored as the initial time, `now2` the value read for
`jiq_timer.expires`, and `c` the context of the direct call to `jiq_print`. -/
def jiqruntimer_show_arm (K : Kernel) (delay : Int) (now now2 : Nat) (c : Ctx)
    (file : seq_file) (jiq_data : clientdata) : TimerSys :=
  let d0 : clientdata :=
    { jiq_data with jiffies := now % 2 ^ K.BITS_PER_LONG, sq_file := file }
  let expires := (now2 % 2 ^ K.BITS_PER_LONG + K.HZ) % 2 ^ K.BITS_PER_LONG
  let r := jiq_print K c d0
  { data := r.data, pending := true, pc := Pc.armed,
    trace := [Event.init_timer] ++ r.events ++ [Event.add_timer expires] }

/-- What can happen next in a timer session: the reader goes to sleep, the
timer fires (in context `c`), an unrelated signal arrives, or the woken reader
runs `del_timer_sync` and returns. -/
inductive Action where
  | sleep
  | fire (c : Ctx)
  | signal
  | cancel
deriving DecidableEq

/-- One transition of a timer session, `none` when the action is not enabled.
A pending timer may fire wherever the reader stands; its wake-up reaches the
reader only if the reader is asleep. -/
def timer_step (K : Kernel) : Action → TimerSys → Option TimerSys
  | Action.sleep, s =>
    if s.pc = Pc.armed then
      some { s with pc := Pc.sleeping, trace := s.trace ++ [Event.interruptible_sleep_on] }
    else none
  | Action.fire c, s =>
    if s.pending then
      let r := jiq_timedout K c s.data
      some { data := r.1, pending := false,
             pc := if s.pc = Pc.sleeping then Pc.woken else s.pc,
             trace := s.trace ++ r.2 }
    else none
  | Action.signal, s =>
    if s.pc = Pc.sleeping then some { s with pc := Pc.woken } else none
  | Action.cancel, s =>
    if s.pc = Pc.woken then
      some { s with pending := false, pc := Pc.returned,
                    trace := s.trace ++ [Event.del_timer_sync] }
    else none

/-- A sequence of transitions, `none` as soon as one is not enabled. -/
def timer_exec (K : Kernel) : List Action → TimerSys → Option TimerSys
  | [], s => some s
  | a :: as, s =>
    match timer_step K a s with
    | none => none
    | some s' => timer_exec K as s'

/-- Whether an event arms `jiq_timer`. -/
def is_add_timer : Event → Bool
  | Event.add_timer _ => true
  | _ => false

/-- Whether an action is a firing of `jiq_timer`. -/
def is_fire : Action → Bool
  | Action.fire _ => true
  | _ => false

/-- What holds of every state of a timer session: `add_timer` was called
exactly once, and a reader that has returned left the timer not pending with
`del_timer_sync` as the last call made. -/
def TimerInv (s : TimerSys) : Prop :=
  s.trace.countP is_add_timer = 1 ∧
    (s.pc = Pc.returned →
      s.pending = false ∧ s.trace.getLast? = some Event.del_timer_sync)

/-! ## Concrete instances -/

/-- A 64-bit kernel with 4096-byte pages, a 100 Hz clock and the ideal chunk
writer. -/
def K64 : Kernel :=
  { seq_printf := seq_append, BITS_PER_LONG := 64, PAGE_SIZE := 4096, HZ := 100 }

/-- The kernel of the 896-byte scenario: as `K64` with `PAGE_SIZE` 1024, so
that `LIMIT` is 896. -/
def K896 : Kernel :=
  { seq_printf := seq_append, BITS_PER_LONG := 64, PAGE_SIZE := 1024, HZ := 100 }

/-- A clock advancing by one per sample, seen from a task `kwork` with pid 7 on
processor 0; every sample line it yields is 40 bytes long. -/
def env40 (k : Nat) : Ctx :=
  { jiffies := 1001 + k, preempt_count := 0, pid := 7, cpu := 0, comm := "kwork".toList }

/-- An empty report file. -/
def file0 : seq_file := { buf := [], size := 0 }

/-- Client data at the start of a session at time 1000 over an empty file. -/
def data0 : clientdata := { sq_file := file0, jiffies := 1000, delay := 0 }

/-! ## Theorems -/

/-! ### One invocation -/

theorem jiq_print_stop (K : Kernel) (c : Ctx) (d : clientdata)
    (h : LIMIT K < d.sq_file.size) :
    jiq_print K c d = { ret := 0, data := d, events := [Event.wake_up_interruptible] } := by
  unfold jiq_print
  simp [h]

theorem jiq_print_cont (K : Kernel) (c : Ctx) (d : clientdata)
    (h : ¬ LIMIT K < d.sq_file.size) :
    jiq_print K c d =
      { ret := 1,
        data := { d with
          sq_file := K.seq_printf
            (if d.sq_file.size = 0 then K.seq_printf d.sq_file header else d.sq_file)
            (sample_text K c d),
          jiffies := c.jiffies % 2 ^ K.BITS_PER_LONG },
        events := [] } := by
  unfold jiq_print
  simp [h]

theorem jiq_print_ret_cases (K : Kernel) (c : Ctx) (d : clientdata) :
    ((jiq_print K c d).ret = 0 ∧ LIMIT K < d.sq_file.size) ∨
    ((jiq_print K c d).ret = 1 ∧ ¬ LIMIT K < d.sq_file.size) := by
  by_cases h : LIMIT K < d.sq_file.size
  · left; rw [jiq_print_stop K c d h]; exact ⟨rfl, h⟩
  · right; rw [jiq_print_cont K c d h]; exact ⟨rfl, h⟩

theorem jiq_print_ret_one_iff (K : Kernel) (c : Ctx) (d : clientdata) :
    (jiq_print K c d).ret = 1 ↔ ¬ LIMIT K < d.sq_file.size := by
  rcases jiq_print_ret_cases K c d with ⟨h1, h2⟩ | ⟨h1, h2⟩
  · constructor
    · intro h; rw [h1] at h; exact absurd h (by decide)
    · intro h; exact absurd h2 h
  · exact ⟨fun _ => h2, fun _ => h1⟩

theorem jiq_print_ret_zero_iff (K : Kernel) (c : Ctx) (d : clientdata) :
    (jiq_print K c d).ret = 0 ↔ LIMIT K < d.sq_file.size := by
  rcases jiq_print_ret_cases K c d with ⟨h1, h2⟩ | ⟨h1, h2⟩
  · exact ⟨fun _ => h2, fun _ => h1⟩
  · constructor
    · intro h; rw [h1] at h; exact absurd h (by decide)
    · intro h; exact absurd h h2

theorem jiq_print_delay (K : Kernel) (c : Ctx) (d : clientdata) :
    (jiq_print K c d).data.delay = d.delay := by
  by_cases h : LIMIT K < d.sq_file.size
  · rw [jiq_print_stop K c d h]
  · rw [jiq_print_cont K c d h]

theorem sample_text_ne_nil (K : Kernel) (c : Ctx) (d : clientdata) :
    sample_text K c d ≠ [] := by
  unfold sample_text sample_line
  intro h
  have h2 := congrArg List.length h
  simp at h2

theorem header_length : header.length = 42 := by decide

theorem header_ne_nil : header ≠ [] := by
  intro h
  have h2 := congrArg List.length h
  rw [header_length] at h2
  exact absurd h2 (by decide)

theorem growsSome_of_growsByBytes (pr : seq_file → List Char → seq_file)
    (hg : GrowsByBytes pr) : GrowsSome pr := by
  intro m s hs
  rw [hg m s]
  have : 0 < s.length := List.length_pos.mpr hs
  omega

theorem seq_append_appends : Appends seq_append := fun _ _ => rfl

theorem seq_append_growsByBytes : GrowsByBytes seq_append := fun _ _ => rfl

theorem seq_append_growsSome : GrowsSome seq_append :=
  growsSome_of_growsByBytes seq_append seq_append_growsByBytes

/-- Size after one continuing invocation, when writes grow the size by the
bytes written. -/
theorem jiq_print_size (K : Kernel) (c : Ctx) (d : clientdata)
    (hg : GrowsByBytes K.seq_printf) (h : ¬ LIMIT K < d.sq_file.size) :
    (jiq_print K c d).data.sq_file.size =
      (if d.sq_file.size = 0 then header.length else d.sq_file.size) +
        (sample_text K c d).length := by
  rw [jiq_print_cont K c d h]
  show (K.seq_printf _ _).size = _
  rw [hg]
  by_cases h0 : d.sq_file.size = 0
  · simp only [h0, if_true]
    rw [hg, h0]
    simp
  · simp only [h0, if_false]

/-- Buffer after one continuing invocation, when writes append their chunk. -/
theorem jiq_print_buf (K : Kernel) (c : Ctx) (d : clientdata)
    (ha : Appends K.seq_printf) (h : ¬ LIMIT K < d.sq_file.size) :
    (jiq_print K c d).data.sq_file.buf =
      d.sq_file.buf ++ (if d.sq_file.size = 0 then [header] else []) ++
        [sample_text K c d] := by
  rw [jiq_print_cont K c d h]
  show (K.seq_printf _ _).buf = _
  rw [ha]
  by_cases h0 : d.sq_file.size = 0
  · simp only [h0, if_true]
    rw [ha]
  · simp only [h0, if_false, List.append_nil]

/-- A continuing invocation leaves a non-zero size behind. -/
theorem jiq_print_size_pos (K : Kernel) (c : Ctx) (d : clientdata)
    (hs : GrowsSome K.seq_printf) (h : ¬ LIMIT K < d.sq_file.size) :
    d.sq_file.size < (jiq_print K c d).data.sq_file.size := by
  rw [jiq_print_cont K c d h]
  show _ < (K.seq_printf _ _).size
  have h1 := hs (if d.sq_file.size = 0 then K.seq_printf d.sq_file header else d.sq_file)
    (sample_text K c d) (sample_text_ne_nil K c d)
  by_cases h0 : d.sq_file.size = 0
  · exact Nat.lt_of_le_of_lt (by rw [h0]; exact Nat.zero_le _) h1
  · simp only [h0, if_false] at h1 ⊢
    exact h1

theorem toSigned_modEq (w x : Nat) :
    toSigned w x ≡ (x : Int) [ZMOD ((2 ^ w : Nat) : Int)] := by
  unfold toSigned
  have h1 : ((x % 2 ^ w : Nat) : Int) ≡ x [ZMOD ((2 ^ w : Nat) : Int)] := by
    rw [Int.natCast_mod]
    exact Int.mod_modEq _ _
  have h3 : (((2 ^ w : Nat) : Int)) ≡ 0 [ZMOD ((2 ^ w : Nat) : Int)] := by
    simp [Int.ModEq]
  by_cases h : x % 2 ^ w < 2 ^ (w - 1)
  · rw [if_pos h]
    exact h1
  · rw [if_neg h]
    have h4 := h1.sub h3
    simpa using h4

/-! ### Runs -/

theorem jiq_run_delay (K : Kernel) (env : Nat → Ctx) (d : clientdata) (n : Nat) :
    (jiq_run K env n d).delay = d.delay := by
  induction n with
  | zero => rfl
  | succ n ih =>
    show (jiq_print K (env n) (jiq_run K env n d)).data.delay = d.delay
    rw [jiq_print_delay, ih]

theorem ret_at_one_iff (K : Kernel) (env : Nat → Ctx) (d : clientdata) (k : Nat) :
    ret_at K env d k = 1 ↔ ¬ LIMIT K < (jiq_run K env k d).sq_file.size :=
  jiq_print_ret_one_iff K (env k) (jiq_run K env k d)

theorem ret_at_zero_iff (K : Kernel) (env : Nat → Ctx) (d : clientdata) (k : Nat) :
    ret_at K env d k = 0 ↔ LIMIT K < (jiq_run K env k d).sq_file.size :=
  jiq_print_ret_zero_iff K (env k) (jiq_run K env k d)

theorem ret_at_cases (K : Kernel) (env : Nat → Ctx) (d : clientdata) (k : Nat) :
    ret_at K env d k = 0 ∨ ret_at K env d k = 1 := by
  rcases jiq_print_ret_cases K (env k) (jiq_run K env k d) with h | h
  · exact Or.inl h.1
  · exact Or.inr h.1

/-- An invocation that stops changes nothing. -/
theorem jiq_run_succ_stop (K : Kernel) (env : Nat → Ctx) (d : clientdata) (n : Nat)
    (h : ret_at K env d n = 0) : jiq_run K env (n + 1) d = jiq_run K env n d := by
  show (jiq_print K (env n) (jiq_run K env n d)).data = _
  rw [jiq_print_stop K (env n) _ ((ret_at_zero_iff K env d n).mp h)]

/-- Any run equals its continuing part: the invocations after the first stop
change nothing. -/
theorem jiq_run_collapse (K : Kernel) (env : Nat → Ctx) (d : clientdata) (n : Nat) :
    ∃ m, m ≤ n ∧ jiq_run K env n d = jiq_run K env m d ∧
      (∀ i, i < m → ret_at K env d i = 1) ∧
      (m = n ∨ LIMIT K < (jiq_run K env m d).sq_file.size) := by
  induction n with
  | zero => exact ⟨0, le_refl 0, rfl, fun i hi => absurd hi (Nat.not_lt_zero i), Or.inl rfl⟩
  | succ n ih =>
    obtain ⟨m, hmn, hrun, hcont, hstop⟩ := ih
    rcases ret_at_cases K env d n with h0 | h1
    · refine ⟨m, Nat.le_succ_of_le hmn, ?_, hcont, ?_⟩
      · rw [jiq_run_succ_stop K env d n h0, hrun]
      · right
        rcases hstop with h | h
        · rw [h]; exact (ret_at_zero_iff K env d n).mp h0
        · exact h
    · have hmeq : m = n := by
        rcases hstop with h | h
        · exact h
        · exfalso
          rw [← hrun] at h
          exact (ret_at_one_iff K env d n).mp h1 h
      subst hmeq
      refine ⟨m + 1, le_refl _, rfl, ?_, Or.inl rfl⟩
      intro i hi
      rcases Nat.lt_succ_iff_lt_or_eq.mp hi with h | h
      · exact hcont i h
      · rw [h]; exact h1

/-- Buffer after `n` continuing invocations: what was there, the header if the
size was zero on entry, then one sample line per invocation. -/
theorem jiq_run_buf (K : Kernel) (env : Nat → Ctx) (d : clientdata)
    (hs : GrowsSome K.seq_printf) (ha : Appends K.seq_printf) (n : Nat)
    (hcont : ∀ i, i < n → ret_at K env d i = 1) :
    (jiq_run K env n d).sq_file.buf =
        d.sq_file.buf ++ (if d.sq_file.size = 0 ∧ 0 < n then [header] else []) ++
          (List.range n).map (line_at K env d) ∧
      (0 < n → 0 < (jiq_run K env n d).sq_file.size) := by
  induction n with
  | zero => simp [jiq_run]
  | succ n ih =>
    obtain ⟨ihb, ihs⟩ := ih (fun i hi => hcont i (Nat.lt_succ_of_lt hi))
    have hn : ¬ LIMIT K < (jiq_run K env n d).sq_file.size :=
      (ret_at_one_iff K env d n).mp (hcont n (Nat.lt_succ_self n))
    constructor
    · show (jiq_print K (env n) (jiq_run K env n d)).data.sq_file.buf = _
      rw [jiq_print_buf K (env n) _ ha hn, ihb, List.range_succ, List.map_append]
      rcases Nat.eq_zero_or_pos n with h0 | hpos
      · subst h0
        simp [jiq_run, line_at]
      · have hsz : (jiq_run K env n d).sq_file.size ≠ 0 := Nat.pos_iff_ne_zero.mp (ihs hpos)
        simp [hsz, hpos, line_at]
    · intro _
      exact Nat.lt_of_le_of_lt (Nat.zero_le _) (jiq_print_size_pos K (env n) _ hs hn)

/-- While every invocation continues, the size is at least their number. -/
theorem jiq_run_size_ge (K : Kernel) (env : Nat → Ctx) (d : clientdata)
    (hs : GrowsSome K.seq_printf) (n : Nat)
    (hcont : ∀ i, i < n → ret_at K env d i = 1) :
    d.sq_file.size + n ≤ (jiq_run K env n d).sq_file.size := by
  induction n with
  | zero => exact le_refl _
  | succ n ih =>
    have ih2 := ih (fun i hi => hcont i (Nat.lt_succ_of_lt hi))
    have hn : ¬ LIMIT K < (jiq_run K env n d).sq_file.size :=
      (ret_at_one_iff K env d n).mp (hcont n (Nat.lt_succ_self n))
    have h3 := jiq_print_size_pos K (env n) _ hs hn
    show _ ≤ (jiq_print K (env n) (jiq_run K env n d)).data.sq_file.size
    omega

/-- Some invocation stops, at the latest the one numbered `LIMIT + 1`; all
invocations before the first such one continue. -/
theorem exists_stop (K : Kernel) (env : Nat → Ctx) (d : clientdata)
    (hs : GrowsSome K.seq_printf) :
    ∃ n, n ≤ LIMIT K + 1 ∧ (∀ i, i < n → ret_at K env d i = 1) ∧ ret_at K env d n = 0 := by
  have hex : ∃ n, ret_at K env d n = 0 := by
    by_contra hne
    have hall : ∀ i, ret_at K env d i = 1 := by
      intro i
      rcases ret_at_cases K env d i with h | h
      · exact absurd ⟨i, h⟩ hne
      · exact h
    have h1 := jiq_run_size_ge K env d hs (LIMIT K + 1) (fun i _ => hall i)
    have h2 := (ret_at_one_iff K env d (LIMIT K + 1)).mp (hall _)
    omega
  refine ⟨Nat.find hex, ?_, ?_, Nat.find_spec hex⟩
  · by_contra hgt
    have hlt : LIMIT K + 1 < Nat.find hex := Nat.lt_of_not_le hgt
    have hall : ∀ i, i < LIMIT K + 2 → ret_at K env d i = 1 := by
      intro i hi
      rcases ret_at_cases K env d i with h | h
      · exact absurd h (Nat.find_min hex (by omega))
      · exact h
    have h1 := jiq_run_size_ge K env d hs (LIMIT K + 1) (fun i hi => hall i (by omega))
    have h2 := (ret_at_one_iff K env d (LIMIT K + 1)).mp (hall _ (by omega))
    omega
  · intro i hi
    rcases ret_at_cases K env d i with h | h
    · exact absurd h (Nat.find_min hex hi)
    · exact h

/-! ### The callbacks and the deferred loop -/

theorem jiq_print_wq_eq (K : Kernel) (c : Ctx) (d : clientdata) :
    jiq_print_wq K c d =
      ((jiq_print K c d).data,
        if (jiq_print K c d).ret = 0 then [Event.wake_up_interruptible]
        else [if d.delay ≠ 0 then Event.schedule_delayed_work d.delay
              else Event.schedule_work]) := by
  unfold jiq_print_wq
  by_cases h : LIMIT K < d.sq_file.size
  · rw [jiq_print_stop K c d h]
    simp
  · rw [jiq_print_cont K c d h]
    by_cases hd : d.delay = 0
    · simp [hd]
    · simp [hd]

theorem jiq_print_tasklet_eq (K : Kernel) (c : Ctx) (d : clientdata) :
    jiq_print_tasklet K c d =
      ((jiq_print K c d).data,
        if (jiq_print K c d).ret = 0 then [Event.wake_up_interruptible]
        else [Event.tasklet_schedule]) := by
  unfold jiq_print_tasklet
  by_cases h : LIMIT K < d.sq_file.size
  · rw [jiq_print_stop K c d h]
    simp
  · rw [jiq_print_cont K c d h]
    simp

theorem work_queued_iff (K : Kernel) (c : Ctx) (d : clientdata) :
    work_queued (jiq_print_wq K c d).2 = true ↔ (jiq_print K c d).ret = 1 := by
  rw [jiq_print_wq_eq]
  rcases jiq_print_ret_cases K c d with ⟨h, _⟩ | ⟨h, _⟩
  · simp [h, work_queued]
  · by_cases hd : d.delay = 0
    · simp [h, hd, work_queued]
    · simp [h, hd, work_queued]

theorem tasklet_queued_iff (K : Kernel) (c : Ctx) (d : clientdata) :
    tasklet_queued (jiq_print_tasklet K c d).2 = true ↔ (jiq_print K c d).ret = 1 := by
  rw [jiq_print_tasklet_eq]
  rcases jiq_print_ret_cases K c d with ⟨h, _⟩ | ⟨h, _⟩
  · simp [h, tasklet_queued]
  · simp [h, tasklet_queued]

/-- The deferred loop, given enough fuel, ends at the first invocation that
stops, with the data of the run up to there and one event list per
invocation. -/
theorem run_deferred_some (K : Kernel)
    (handler : Ctx → clientdata → clientdata × List Event) (queued : List Event → Bool)
    (hdata : ∀ c d, (handler c d).1 = (jiq_print K c d).data)
    (hq : ∀ c d, queued (handler c d).2 = true ↔ (jiq_print K c d).ret = 1)
    (env : Nat → Ctx) (d0 : clientdata) :
    ∀ n fuel k, (∀ i, i < n → ret_at K env d0 (k + i) = 1) → ret_at K env d0 (k + n) = 0 →
      n + 1 ≤ fuel →
      run_deferred handler queued env fuel k (jiq_run K env k d0) =
        some (jiq_run K env (k + n) d0,
          (List.range (n + 1)).map
            (fun i => (handler (env (k + i)) (jiq_run K env (k + i) d0)).2)) := by
  intro n
  induction n with
  | zero =>
    intro fuel k _ hstop hfuel
    obtain ⟨f, rfl⟩ : ∃ f, fuel = f + 1 := ⟨fuel - 1, by omega⟩
    unfold run_deferred
    have hnq : ¬ (queued (handler (env k) (jiq_run K env k d0)).2 = true) := by
      rw [hq]
      intro h1
      have h0 : (jiq_print K (env k) (jiq_run K env k d0)).ret = 0 := hstop
      rw [h0] at h1
      exact absurd h1 (by decide)
    have hd : (handler (env k) (jiq_run K env k d0)).1 = jiq_run K env k d0 := by
      rw [hdata]
      exact jiq_run_succ_stop K env d0 k hstop
    simp [hnq, hd, List.range_succ]
  | succ n ih =>
    intro fuel k hcont hstop hfuel
    obtain ⟨f, rfl⟩ : ∃ f, fuel = f + 1 := ⟨fuel - 1, by omega⟩
    unfold run_deferred
    have hqt : queued (handler (env k) (jiq_run K env k d0)).2 = true := by
      rw [hq]
      exact hcont 0 (Nat.succ_pos n)
    have hd : (handler (env k) (jiq_run K env k d0)).1 = jiq_run K env (k + 1) d0 := by
      rw [hdata]
      rfl
    have hrec := ih f (k + 1)
      (fun i hi => by
        have := hcont (i + 1) (Nat.succ_lt_succ hi)
        rwa [show k + (i + 1) = k + 1 + i by omega] at this)
      (by rwa [show k + (n + 1) = k + 1 + n by omega] at hstop)
      (by omega)
    simp only [hqt, if_true, hd, hrec]
    rw [show k + 1 + n = k + (n + 1) by omega]
    congr 2
    rw [List.range_succ_eq_map (n + 1), List.map_cons, List.map_map]
    congr 1
    apply List.map_congr_left
    intro i _
    simp only [Function.comp, Nat.succ_eq_add_one]
    rw [show k + 1 + i = k + (i + 1) by omega]

/-- The deferred loop runs out of fuel when at least as many invocations
continue as there is fuel. -/
theorem run_deferred_none (K : Kernel)
    (handler : Ctx → clientdata → clientdata × List Event) (queued : List Event → Bool)
    (hdata : ∀ c d, (handler c d).1 = (jiq_print K c d).data)
    (hq : ∀ c d, queued (handler c d).2 = true ↔ (jiq_print K c d).ret = 1)
    (env : Nat → Ctx) (d0 : clientdata) :
    ∀ fuel k, (∀ i, i < fuel → ret_at K env d0 (k + i) = 1) →
      run_deferred handler queued env fuel k (jiq_run K env k d0) = none := by
  intro fuel
  induction fuel with
  | zero => intro k _; rfl
  | succ f ih =>
    intro k hcont
    unfold run_deferred
    have hqt : queued (handler (env k) (jiq_run K env k d0)).2 = true := by
      rw [hq]
      exact hcont 0 (Nat.succ_pos f)
    have hd : (handler (env k) (jiq_run K env k d0)).1 = jiq_run K env (k + 1) d0 := by
      rw [hdata]
      rfl
    have hrec := ih (k + 1)
      (fun i hi => by
        have := hcont (i + 1) (Nat.succ_lt_succ hi)
        rwa [show k + (i + 1) = k + 1 + i by omega] at this)
    simp only [hqt, if_true, hd, hrec]

/-- The deferred loop of a callback that re-queues itself with `re delay` on
continue and only wakes the reader on stop: with enough fuel it ends at the
first stop, after one re-queue per continuing invocation. -/
theorem run_loop_spec (K : Kernel)
    (handler : Ctx → clientdata → clientdata × List Event) (queued : List Event → Bool)
    (re : Int → List Event)
    (hdata : ∀ c d, (handler c d).1 = (jiq_print K c d).data)
    (hq : ∀ c d, queued (handler c d).2 = true ↔ (jiq_print K c d).ret = 1)
    (hev : ∀ c d, (handler c d).2 =
      if (jiq_print K c d).ret = 0 then [Event.wake_up_interruptible] else re d.delay)
    (env : Nat → Ctx) (d : clientdata) (n : Nat)
    (hcont : ∀ i, i < n → ret_at K env d i = 1) (hstop : ret_at K env d n = 0)
    (fuel : Nat) :
    run_deferred handler queued env fuel 0 d =
      if n + 1 ≤ fuel then
        some (jiq_run K env n d,
          List.replicate n (re d.delay) ++ [[Event.wake_up_interruptible]])
      else none := by
  by_cases hf : n + 1 ≤ fuel
  · rw [if_pos hf]
    have h := run_deferred_some K handler queued hdata hq env d n fuel 0
      (fun i hi => by rw [Nat.zero_add]; exact hcont i hi)
      (by rw [Nat.zero_add]; exact hstop) hf
    simp only [Nat.zero_add] at h
    have h0 : jiq_run K env 0 d = d := rfl
    rw [h0] at h
    rw [h]
    congr 2
    rw [List.range_succ, List.map_append]
    congr 1
    · rw [← List.length_range n, ← List.map_const', List.length_range]
      apply List.map_congr_left
      intro i hi
      have hi2 : i < n := List.mem_range.mp hi
      have h1 : (jiq_print K (env i) (jiq_run K env i d)).ret = 1 := hcont i hi2
      rw [hev, h1, jiq_run_delay]
      simp
    · have h1 : (jiq_print K (env n) (jiq_run K env n d)).ret = 0 := hstop
      simp [hev, h1]
  · rw [if_neg hf]
    have h := run_deferred_none K handler queued hdata hq env d fuel 0
      (fun i hi => by rw [Nat.zero_add]; exact hcont i (by omega))
    exact h

theorem run_wq_spec (K : Kernel) (env : Nat → Ctx) (d : clientdata) (n : Nat)
    (hcont : ∀ i, i < n → ret_at K env d i = 1) (hstop : ret_at K env d n = 0)
    (fuel : Nat) :
    run_wq K env fuel d =
      if n + 1 ≤ fuel then
        some (jiq_run K env n d,
          List.replicate n
              [if d.delay ≠ 0 then Event.schedule_delayed_work d.delay
               else Event.schedule_work] ++
            [[Event.wake_up_interruptible]])
      else none :=
  run_loop_spec K (jiq_print_wq K) work_queued
    (fun dl => [if dl ≠ 0 then Event.schedule_delayed_work dl else Event.schedule_work])
    (fun c d => by rw [jiq_print_wq_eq]) (work_queued_iff K)
    (fun c d => by rw [jiq_print_wq_eq]) env d n hcont hstop fuel

theorem run_tasklet_spec (K : Kernel) (env : Nat → Ctx) (d : clientdata) (n : Nat)
    (hcont : ∀ i, i < n → ret_at K env d i = 1) (hstop : ret_at K env d n = 0)
    (fuel : Nat) :
    run_tasklet K env fuel d =
      if n + 1 ≤ fuel then
        some (jiq_run K env n d,
          List.replicate n [Event.tasklet_schedule] ++ [[Event.wake_up_interruptible]])
      else none :=
  run_loop_spec K (jiq_print_tasklet K) tasklet_queued (fun _ => [Event.tasklet_schedule])
    (fun c d => by rw [jiq_print_tasklet_eq]) (tasklet_queued_iff K)
    (fun c d => by rw [jiq_print_tasklet_eq]) env d n hcont hstop fuel

/-- A deferred loop that ends has a first stop, numbered one less than the
number of invocations it made. -/
theorem run_loop_stop (K : Kernel)
    (handler : Ctx → clientdata → clientdata × List Event) (queued : List Event → Bool)
    (hdata : ∀ c d, (handler c d).1 = (jiq_print K c d).data)
    (hq : ∀ c d, queued (handler c d).2 = true ↔ (jiq_print K c d).ret = 1)
    (env : Nat → Ctx) (d : clientdata) (fuel : Nat)
    (r : clientdata × List (List Event))
    (h : run_deferred handler queued env fuel 0 d = some r) :
    ∃ n, n + 1 ≤ fuel ∧ (∀ i, i < n → ret_at K env d i = 1) ∧ ret_at K env d n = 0 := by
  by_contra hne
  have hall : ∀ i, i < fuel → ret_at K env d i = 1 := by
    intro i
    induction i using Nat.strong_induction_on with
    | _ i ih =>
      intro hi
      rcases ret_at_cases K env d i with h0 | h1
      · exact absurd ⟨i, by omega, fun j hj => ih j hj (by omega), h0⟩ hne
      · exact h1
  have hnone := run_deferred_none K handler queued hdata hq env d fuel 0
    (fun i hi => by rw [Nat.zero_add]; exact hall i hi)
  have h0 : jiq_run K env 0 d = d := rfl
  rw [h0, h] at hnone
  exact absurd hnone (by simp)

/-! ### Runs from an empty buffer -/

/-- A run of one or more invocations over an empty buffer leaves the header
followed by the sample lines of its continuing invocations, at least one. -/
theorem run_from_empty (K : Kernel) (env : Nat → Ctx) (d : clientdata)
    (hs : GrowsSome K.seq_printf) (ha : Appends K.seq_printf)
    (h0 : d.sq_file.size = 0) (hb : d.sq_file.buf = []) (n : Nat) (hn : 1 ≤ n) :
    ∃ m, 1 ≤ m ∧ m ≤ n ∧ jiq_run K env n d = jiq_run K env m d ∧
      (∀ i, i < m → ret_at K env d i = 1) ∧
      (jiq_run K env n d).sq_file.buf = header :: (List.range m).map (line_at K env d) := by
  obtain ⟨m, hmn, hrun, hcont, hstop⟩ := jiq_run_collapse K env d n
  have hm : 1 ≤ m := by
    rcases hstop with h | h
    · omega
    · rcases Nat.eq_zero_or_pos m with hz | hp
      · subst hz
        have h1 : jiq_run K env 0 d = d := rfl
        rw [h1, h0] at h
        exact absurd h (Nat.not_lt_zero _)
      · exact hp
  refine ⟨m, hm, hmn, hrun, hcont, ?_⟩
  rw [hrun, (jiq_run_buf K env d hs ha m hcont).1, hb]
  have hpos : 0 < m := hm
  simp [h0, hpos]

/-- The buffer one more invocation leaves: unchanged, or with the header (only
if the size was zero) and then one sample line appended. -/
theorem jiq_run_succ_buf (K : Kernel) (env : Nat → Ctx) (d : clientdata)
    (ha : Appends K.seq_printf) (n : Nat) :
    (jiq_run K env (n + 1) d).sq_file.buf = (jiq_run K env n d).sq_file.buf ∨
    (jiq_run K env (n + 1) d).sq_file.buf =
      (jiq_run K env n d).sq_file.buf ++
        (if (jiq_run K env n d).sq_file.size = 0 then [header] else []) ++
        [line_at K env d n] := by
  rcases ret_at_cases K env d n with h | h
  · left
    rw [jiq_run_succ_stop K env d n h]
  · right
    exact jiq_print_buf K (env n) _ ha ((ret_at_one_iff K env d n).mp h)

/-! ### The timer session -/

theorem jiq_print_events (K : Kernel) (c : Ctx) (d : clientdata) :
    (jiq_print K c d).events = [] ∨ (jiq_print K c d).events = [Event.wake_up_interruptible] := by
  by_cases h : LIMIT K < d.sq_file.size
  · right; rw [jiq_print_stop K c d h]
  · left; rw [jiq_print_cont K c d h]

theorem jiq_print_no_add_timer (K : Kernel) (c : Ctx) (d : clientdata) :
    (jiq_print K c d).events.countP is_add_timer = 0 := by
  rcases jiq_print_events K c d with h | h <;> rw [h] <;> rfl

theorem timer_step_inv (K : Kernel) (a : Action) (s s' : TimerSys)
    (h : timer_step K a s = some s') :
    (a = Action.sleep ∧ s.pc = Pc.armed ∧
      s' = { s with pc := Pc.sleeping,
                    trace := s.trace ++ [Event.interruptible_sleep_on] }) ∨
    (∃ c, a = Action.fire c ∧ s.pending = true ∧
      s' = { data := (jiq_print K c s.data).data, pending := false,
             pc := if s.pc = Pc.sleeping then Pc.woken else s.pc,
             trace := s.trace ++
               ((jiq_print K c s.data).events ++ [Event.wake_up_interruptible]) }) ∨
    (a = Action.signal ∧ s.pc = Pc.sleeping ∧ s' = { s with pc := Pc.woken }) ∨
    (a = Action.cancel ∧ s.pc = Pc.woken ∧
      s' = { s with pending := false, pc := Pc.returned,
                    trace := s.trace ++ [Event.del_timer_sync] }) := by
  cases a with
  | sleep =>
    left
    simp only [timer_step] at h
    by_cases hp : s.pc = Pc.armed
    · rw [if_pos hp] at h
      exact ⟨rfl, hp, (Option.some.inj h).symm⟩
    · rw [if_neg hp] at h
      exact absurd h (by simp)
  | fire c =>
    right; left
    simp only [timer_step] at h
    by_cases hp : s.pending = true
    · rw [if_pos hp] at h
      exact ⟨c, rfl, hp, (Option.some.inj h).symm⟩
    · rw [if_neg hp] at h
      exact absurd h (by simp)
  | signal =>
    right; right; left
    simp only [timer_step] at h
    by_cases hp : s.pc = Pc.sleeping
    · rw [if_pos hp] at h
      exact ⟨rfl, hp, (Option.some.inj h).symm⟩
    · rw [if_neg hp] at h
      exact absurd h (by simp)
  | cancel =>
    right; right; right
    simp only [timer_step] at h
    by_cases hp : s.pc = Pc.woken
    · rw [if_pos hp] at h
      exact ⟨rfl, hp, (Option.some.inj h).symm⟩
    · rw [if_neg hp] at h
      exact absurd h (by simp)

/-- No action is enabled once the reader has returned. -/
theorem timer_step_returned (K : Kernel) (a : Action) (s : TimerSys)
    (hinv : TimerInv s) (hpc : s.pc = Pc.returned) : timer_step K a s = none := by
  cases hstep : timer_step K a s with
  | none => rfl
  | some s' =>
    exfalso
    have hp := (hinv.2 hpc).1
    rcases timer_step_inv K a s s' hstep with ⟨_, h, _⟩ | ⟨c, _, h, _⟩ | ⟨_, h, _⟩ | ⟨_, h, _⟩
    · rw [hpc] at h; exact absurd h (by decide)
    · rw [hp] at h; exact absurd h (by decide)
    · rw [hpc] at h; exact absurd h (by decide)
    · rw [hpc] at h; exact absurd h (by decide)

theorem timer_step_pres (K : Kernel) (a : Action) (s s' : TimerSys)
    (h : timer_step K a s = some s') (hinv : TimerInv s) : TimerInv s' := by
  obtain ⟨hcnt, hret⟩ := hinv
  rcases timer_step_inv K a s s' h with ⟨_, hpc, rfl⟩ | ⟨c, _, hp, rfl⟩ | ⟨_, hpc, rfl⟩ |
    ⟨_, hpc, rfl⟩
  · refine ⟨?_, ?_⟩
    · show (s.trace ++ [Event.interruptible_sleep_on]).countP is_add_timer = 1
      rw [List.countP_append, hcnt]
      rfl
    · intro h2
      exact absurd (show Pc.sleeping = Pc.returned from h2) (by decide)
  · have hnr : s.pc ≠ Pc.returned := by
      intro h2
      have := (hret h2).1
      rw [this] at hp
      exact absurd hp (by decide)
    refine ⟨?_, ?_⟩
    · show (s.trace ++ ((jiq_print K c s.data).events ++
        [Event.wake_up_interruptible])).countP is_add_timer = 1
      rw [List.countP_append, List.countP_append, hcnt, jiq_print_no_add_timer]
      rfl
    · intro h2
      exfalso
      have h3 : (if s.pc = Pc.sleeping then Pc.woken else s.pc) = Pc.returned := h2
      by_cases hsl : s.pc = Pc.sleeping
      · rw [if_pos hsl] at h3
        exact absurd h3 (by decide)
      · rw [if_neg hsl] at h3
        exact hnr h3
  · refine ⟨hcnt, ?_⟩
    intro h2
    exact absurd (show Pc.woken = Pc.returned from h2) (by decide)
  · refine ⟨?_, ?_⟩
    · show (s.trace ++ [Event.del_timer_sync]).countP is_add_timer = 1
      rw [List.countP_append, hcnt]
      rfl
    · intro _
      refine ⟨rfl, ?_⟩
      show (s.trace ++ [Event.del_timer_sync]).getLast? = _
      simp

/-- Along any sequence of transitions the invariant is kept, the timer fires
at most once (and only if it was pending), the client data changes only by
that one callback run, and nothing happens after the reader has returned. -/
theorem timer_exec_inv (K : Kernel) :
    ∀ (acts : List Action) (s0 s : TimerSys), timer_exec K acts s0 = some s → TimerInv s0 →
      TimerInv s ∧
      (s.data = s0.data ∨
        ∃ c, s0.pending = true ∧ s.data = (jiq_print K c s0.data).data) ∧
      (s0.pending = false → s.data = s0.data) ∧
      acts.countP is_fire ≤ (if s0.pending = true then 1 else 0) ∧
      (s0.pc = Pc.returned → s = s0) := by
  intro acts
  induction acts with
  | nil =>
    intro s0 s h hinv
    have hs : s = s0 := (Option.some.inj h).symm
    subst hs
    exact ⟨hinv, Or.inl rfl, fun _ => rfl, Nat.zero_le _, fun _ => rfl⟩
  | cons a as ih =>
    intro s0 s h hinv
    unfold timer_exec at h
    cases hstep : timer_step K a s0 with
    | none =>
      rw [hstep] at h
      exact absurd h (by simp)
    | some s1 =>
      rw [hstep] at h
      have hinv1 := timer_step_pres K a s0 s1 hstep hinv
      obtain ⟨hI, hdata, hnp, hfire, _⟩ := ih s1 s h hinv1
      have hnotret : s0.pc ≠ Pc.returned := by
        intro hpc
        rw [timer_step_returned K a s0 hinv hpc] at hstep
        exact absurd hstep (by simp)
      refine ⟨hI, ?_, ?_, ?_, fun hpc => absurd hpc hnotret⟩
      · rcases timer_step_inv K a s0 s1 hstep with ⟨_, _, rfl⟩ | ⟨c, _, hp, rfl⟩ |
          ⟨_, _, rfl⟩ | ⟨_, _, rfl⟩
        · exact hdata
        · right
          exact ⟨c, hp, hnp rfl⟩
        · exact hdata
        · left
          exact hnp rfl
      · intro hp0
        rcases timer_step_inv K a s0 s1 hstep with ⟨_, _, rfl⟩ | ⟨c, _, hp, rfl⟩ |
          ⟨_, _, rfl⟩ | ⟨_, _, rfl⟩
        · exact hnp hp0
        · rw [hp0] at hp
          exact absurd hp (by decide)
        · exact hnp hp0
        · exact hnp rfl
      · rcases timer_step_inv K a s0 s1 hstep with ⟨ha, _, rfl⟩ | ⟨c, ha, hp, rfl⟩ |
          ⟨ha, _, rfl⟩ | ⟨ha, _, rfl⟩
        · rw [ha, List.countP_cons]
          simpa [is_fire] using hfire
        · have hf : as.countP is_fire ≤ (if false = true then 1 else 0) := hfire
          have hf0 : as.countP is_fire ≤ 0 := by simpa using hf
          rw [ha, List.countP_cons, hp]
          simp only [is_fire, if_true]
          omega
        · rw [ha, List.countP_cons]
          simpa [is_fire] using hfire
        · have hf : as.countP is_fire ≤ (if false = true then 1 else 0) := hfire
          have hf0 : as.countP is_fire ≤ 0 := by simpa using hf
          rw [ha, List.countP_cons]
          simp only [is_fire]
          have : (0 : Nat) ≤ (if s0.pending = true then 1 else 0) := Nat.zero_le _
          simp
          omega

theorem jiqruntimer_show_arm_inv (K : Kernel) (delay : Int) (now now2 : Nat) (c : Ctx)
    (file : seq_file) (jiq_data : clientdata) :
    TimerInv (jiqruntimer_show_arm K delay now now2 c file jiq_data) := by
  refine ⟨?_, ?_⟩
  · show ([Event.init_timer] ++ (jiq_print K c _).events ++ [Event.add_timer _]).countP
      is_add_timer = 1
    rw [List.countP_append, List.countP_append, jiq_print_no_add_timer]
    rfl
  · intro h
    exact absurd (show Pc.armed = Pc.returned from h) (by decide)

/-! ### Sessions -/

theorem run_wq_data (K : Kernel) (env : Nat → Ctx) (fuel : Nat) (d : clientdata)
    (r : clientdata × List (List Event)) (h : run_wq K env fuel d = some r) :
    ∃ n, n + 1 ≤ fuel ∧ (∀ i, i < n → ret_at K env d i = 1) ∧ ret_at K env d n = 0 ∧
      r = (jiq_run K env n d,
        List.replicate n
            [if d.delay ≠ 0 then Event.schedule_delayed_work d.delay
             else Event.schedule_work] ++
          [[Event.wake_up_interruptible]]) := by
  obtain ⟨n, hn, hcont, hstop⟩ := run_loop_stop K (jiq_print_wq K) work_queued
    (fun c d => by rw [jiq_print_wq_eq]) (work_queued_iff K) env d fuel r h
  have hspec := run_wq_spec K env d n hcont hstop fuel
  rw [if_pos hn, h] at hspec
  exact ⟨n, hn, hcont, hstop, Option.some.inj hspec⟩

theorem run_tasklet_data (K : Kernel) (env : Nat → Ctx) (fuel : Nat) (d : clientdata)
    (r : clientdata × List (List Event)) (h : run_tasklet K env fuel d = some r) :
    ∃ n, n + 1 ≤ fuel ∧ (∀ i, i < n → ret_at K env d i = 1) ∧ ret_at K env d n = 0 ∧
      r = (jiq_run K env n d,
        List.replicate n [Event.tasklet_schedule] ++ [[Event.wake_up_interruptible]]) := by
  obtain ⟨n, hn, hcont, hstop⟩ := run_loop_stop K (jiq_print_tasklet K) tasklet_queued
    (fun c d => by rw [jiq_print_tasklet_eq]) (tasklet_queued_iff K) env d fuel r h
  have hspec := run_tasklet_spec K env d n hcont hstop fuel
  rw [if_pos hn, h] at hspec
  exact ⟨n, hn, hcont, hstop, Option.some.inj hspec⟩

/-- A loop that ran to its first stop over an empty buffer leaves the header
followed by one sample line per continuing invocation, at least one. -/
theorem stopped_run_buf (K : Kernel) (env : Nat → Ctx) (d : clientdata)
    (hs : GrowsSome K.seq_printf) (ha : Appends K.seq_printf)
    (h0 : d.sq_file.size = 0) (hb : d.sq_file.buf = []) (n : Nat)
    (hcont : ∀ i, i < n → ret_at K env d i = 1) (hstop : ret_at K env d n = 0) :
    1 ≤ n ∧ (jiq_run K env n d).sq_file.buf = header :: (List.range n).map (line_at K env d) := by
  have hn : 1 ≤ n := by
    rcases Nat.eq_zero_or_pos n with hz | hp
    · subst hz
      have h1 := (ret_at_zero_iff K env d 0).mp hstop
      have h2 : jiq_run K env 0 d = d := rfl
      rw [h2, h0] at h1
      exact absurd h1 (Nat.not_lt_zero _)
    · exact hp
  refine ⟨hn, ?_⟩
  rw [(jiq_run_buf K env d hs ha n hcont).1, hb]
  have hpos : 0 < n := hn
  simp [h0, hpos]

theorem jiqwq_show_some (K : Kernel) (env : Nat → Ctx) (fuel : Nat) (delay : Int) (now : Nat)
    (file : seq_file) (jd : clientdata) (r : Int × clientdata × List Event)
    (h : jiqwq_show K env fuel delay now file jd = some r) :
    ∃ q, run_wq K env fuel (jiqwq_show_arm K delay now file jd).1 = some q ∧ r.1 = 0 ∧
      r.2.1 = q.1 ∧
      r.2.2 = (jiqwq_show_arm K delay now file jd).2 ++ q.2.flatten ++ [Event.finish_wait] := by
  unfold jiqwq_show at h
  cases hq : run_wq K env fuel (jiqwq_show_arm K delay now file jd).1 with
  | none => simp [hq] at h
  | some q =>
    simp only [hq] at h
    have := Option.some.inj h
    subst this
    exact ⟨q, rfl, rfl, rfl, rfl⟩

theorem jiqwqdelayed_show_some (K : Kernel) (env : Nat → Ctx) (fuel : Nat) (delay : Int)
    (now : Nat) (file : seq_file) (jd : clientdata) (r : Int × clientdata × List Event)
    (h : jiqwqdelayed_show K env fuel delay now file jd = some r) :
    ∃ q, run_wq K env fuel (jiqwqdelayed_show_arm K delay now file jd).1 = some q ∧ r.1 = 0 ∧
      r.2.1 = q.1 ∧
      r.2.2 = (jiqwqdelayed_show_arm K delay now file jd).2 ++ q.2.flatten ++
        [Event.finish_wait] := by
  unfold jiqwqdelayed_show at h
  cases hq : run_wq K env fuel (jiqwqdelayed_show_arm K delay now file jd).1 with
  | none => simp [hq] at h
  | some q =>
    simp only [hq] at h
    have := Option.some.inj h
    subst this
    exact ⟨q, rfl, rfl, rfl, rfl⟩

theorem jiqtasklet_show_some (K : Kernel) (env : Nat → Ctx) (fuel : Nat) (delay : Int)
    (now : Nat) (file : seq_file) (jd : clientdata) (r : Int × clientdata × List Event)
    (h : jiqtasklet_show K env fuel delay now file jd = some r) :
    ∃ q, run_tasklet K env fuel (jiqtasklet_show_arm K delay now file jd).1 = some q ∧
      r.1 = 0 ∧ r.2.1 = q.1 ∧
      r.2.2 = (jiqtasklet_show_arm K delay now file jd).2 ++ q.2.flatten := by
  unfold jiqtasklet_show at h
  cases hq : run_tasklet K env fuel (jiqtasklet_show_arm K delay now file jd).1 with
  | none => simp [hq] at h
  | some q =>
    simp only [hq] at h
    have := Option.some.inj h
    subst this
    exact ⟨q, rfl, rfl, rfl, rfl⟩

/-! ### Sizes as a function of the line lengths -/

/-- Two runs with the same limit, the same initial size and the same line
lengths go through the same sizes. -/
theorem sizes_agree (K K2 : Kernel) (env env2 : Nat → Ctx) (d d2 : clientdata)
    (hg : GrowsByBytes K.seq_printf) (hg2 : GrowsByBytes K2.seq_printf)
    (hL : LIMIT K2 = LIMIT K) (h0 : d2.sq_file.size = d.sq_file.size) (n : Nat)
    (hl : ∀ k, k < n → (line_at K2 env2 d2 k).length = (line_at K env d k).length) :
    (jiq_run K2 env2 n d2).sq_file.size = (jiq_run K env n d).sq_file.size := by
  induction n with
  | zero => exact h0
  | succ n ih =>
    have ih2 := ih (fun k hk => hl k (Nat.lt_succ_of_lt hk))
    have hline : (sample_text K2 (env2 n) (jiq_run K2 env2 n d2)).length =
        (sample_text K (env n) (jiq_run K env n d)).length := hl n (Nat.lt_succ_self n)
    by_cases hlim : LIMIT K < (jiq_run K env n d).sq_file.size
    · have hlim2 : LIMIT K2 < (jiq_run K2 env2 n d2).sq_file.size := by rw [hL, ih2]; exact hlim
      rw [jiq_run_succ_stop K env d n ((ret_at_zero_iff K env d n).mpr hlim),
        jiq_run_succ_stop K2 env2 d2 n ((ret_at_zero_iff K2 env2 d2 n).mpr hlim2)]
      exact ih2
    · have hlim2 : ¬ LIMIT K2 < (jiq_run K2 env2 n d2).sq_file.size := by
        rw [hL, ih2]; exact hlim
      show (jiq_print K2 (env2 n) (jiq_run K2 env2 n d2)).data.sq_file.size =
        (jiq_print K (env n) (jiq_run K env n d)).data.sq_file.size
      rw [jiq_print_size K (env n) _ hg hlim, jiq_print_size K2 (env2 n) _ hg2 hlim2, ih2,
        hline]

/-- A run over an empty buffer whose sample lines all have `L` bytes: as long
as `42 + L * k` stays within the limit every invocation continues, and the
size after `n` of them is `42 + L * n`. -/
theorem uniform_sizes (K : Kernel) (env : Nat → Ctx) (d : clientdata) (L : Nat)
    (hg : GrowsByBytes K.seq_printf) (h0 : d.sq_file.size = 0) (n : Nat)
    (hl : ∀ k, k < n → (line_at K env d k).length = L)
    (hlim : ∀ k, 1 ≤ k → k < n → 42 + L * k ≤ LIMIT K) :
    (∀ i, i < n → ret_at K env d i = 1) ∧
      (1 ≤ n → (jiq_run K env n d).sq_file.size = 42 + L * n) := by
  induction n with
  | zero =>
    exact ⟨fun i hi => absurd hi (Nat.not_lt_zero i), fun h => absurd h (by decide)⟩
  | succ n ih =>
    obtain ⟨ihc, ihs⟩ := ih (fun k hk => hl k (Nat.lt_succ_of_lt hk))
      (fun k h1 hk => hlim k h1 (Nat.lt_succ_of_lt hk))
    have hnl : ¬ LIMIT K < (jiq_run K env n d).sq_file.size := by
      rcases Nat.eq_zero_or_pos n with hz | hp
      · subst hz
        have h1 : jiq_run K env 0 d = d := rfl
        rw [h1, h0]
        exact Nat.not_lt_zero _
      · rw [ihs hp]
        have := hlim n hp (Nat.lt_succ_self n)
        omega
    constructor
    · intro i hi
      rcases Nat.lt_succ_iff_lt_or_eq.mp hi with h | h
      · exact ihc i h
      · rw [h]
        exact (ret_at_one_iff K env d n).mpr hnl
    · intro _
      have hline : (sample_text K (env n) (jiq_run K env n d)).length = L :=
        hl n (Nat.lt_succ_self n)
      show (jiq_print K (env n) (jiq_run K env n d)).data.sq_file.size = _
      rw [jiq_print_size K (env n) _ hg hnl, hline, header_length]
      rcases Nat.eq_zero_or_pos n with hz | hp
      · subst hz
        have h1 : jiq_run K env 0 d = d := rfl
        rw [h1, h0]
        simp
      · rw [ihs hp]
        have hne : 42 + L * n ≠ 0 := by omega
        rw [if_neg hne, Nat.mul_succ]
        omega

/-! ### Unsigned clock arithmetic -/

theorem usub_lt (w a b : Nat) : usub w a b < 2 ^ w :=
  Nat.mod_lt _ (Nat.pow_pos (by decide))

theorem usub_modEq (w a b : Nat) :
    ((usub w a b : Nat) : Int) ≡ (a : Int) - (b : Int) [ZMOD ((2 ^ w : Nat) : Int)] := by
  unfold usub
  have hm : 0 < 2 ^ w := Nat.pow_pos (by decide)
  have hb : b % 2 ^ w ≤ 2 ^ w := Nat.le_of_lt (Nat.mod_lt _ hm)
  rw [Int.natCast_mod, Nat.cast_add, Nat.cast_sub hb, Int.natCast_mod, Int.natCast_mod]
  refine (Int.mod_modEq _ _).trans ?_
  have h1 : (a : Int) % ((2 ^ w : Nat) : Int) ≡ a [ZMOD ((2 ^ w : Nat) : Int)] :=
    Int.mod_modEq _ _
  have h2 : (b : Int) % ((2 ^ w : Nat) : Int) ≡ b [ZMOD ((2 ^ w : Nat) : Int)] :=
    Int.mod_modEq _ _
  have h3 : (((2 ^ w : Nat) : Int)) ≡ 0 [ZMOD ((2 ^ w : Nat) : Int)] := by
    simp [Int.ModEq]
  have h4 := h1.add (h3.sub h2)
  simpa [sub_eq_add_neg] using h4

/-- The difference is the number of ticks elapsed, also when the clock wrapped
in between. -/
theorem usub_wrap (w t e : Nat) (he : e < 2 ^ w) :
    usub w ((t + e) % 2 ^ w) (t % 2 ^ w) = e := by
  unfold usub
  have hm : 0 < 2 ^ w := Nat.pow_pos (by decide)
  generalize 2 ^ w = m at *
  rw [Nat.mod_mod, Nat.mod_mod]
  have hx : t % m < m := Nat.mod_lt _ hm
  have h1 : (t + e) % m = (t % m + e) % m := by
    rw [Nat.add_mod, Nat.mod_eq_of_lt he]
  rw [h1]
  generalize t % m = x at *
  by_cases hlt : x + e < m
  · rw [Nat.mod_eq_of_lt hlt]
    have : x + e + (m - x) = e + m := by omega
    rw [this, Nat.add_mod_right, Nat.mod_eq_of_lt he]
  · have h2 : (x + e) % m = x + e - m := by
      rw [Nat.mod_eq_sub_mod (by omega)]
      exact Nat.mod_eq_of_lt (by omega)
    rw [h2]
    have : x + e - m + (m - x) = e := by omega
    rw [this, Nat.mod_eq_of_lt he]

theorem toSigned_small (w x : Nat) (hx : x < 2 ^ (w - 1)) : toSigned w x = x := by
  unfold toSigned
  have hle : 2 ^ (w - 1) ≤ 2 ^ w := Nat.pow_le_pow_right (by decide) (Nat.sub_le w 1)
  have hxm : x % 2 ^ w = x := Nat.mod_eq_of_lt (Nat.lt_of_lt_of_le hx hle)
  rw [hxm, if_pos hx]

/-- C2: when every write grows the size by the bytes written, the header and
every sample line the run writes are at most `M` bytes with `M ≤ LIMIT`, and
the buffer starts empty, the size after any number of `jiq_print` invocations is at
most `LIMIT + M`; the same bound holds for the data the work-queue and the
tasklet loops end with. -/
theorem jiq_run_size_le (K : Kernel) (env : Nat → Ctx) (d : clientdata) (M n : Nat)
    (hg : GrowsByBytes K.seq_printf) (hh : header.length ≤ M)
    (hl : ∀ k, k < n → ret_at K env d k = 1 → (line_at K env d k).length ≤ M)
    (hM : M ≤ LIMIT K) (h0 : d.sq_file.size = 0) :
    (jiq_run K env n d).sq_file.size ≤ LIMIT K + M ∧
    (∀ fuel r, fuel ≤ n → run_wq K env fuel d = some r →
      r.1.sq_file.size ≤ LIMIT K + M) ∧
    (∀ fuel r, fuel ≤ n → run_tasklet K env fuel d = some r →
      r.1.sq_file.size ≤ LIMIT K + M) := by
  have key : ∀ m, m ≤ n → (jiq_run K env m d).sq_file.size ≤ LIMIT K + M := by
    intro m
    induction m with
    | zero =>
      intro _
      show d.sq_file.size ≤ _
      rw [h0]
      exact Nat.zero_le _
    | succ m ih =>
      intro hm
      have ih2 := ih (by omega)
      by_cases hlim : LIMIT K < (jiq_run K env m d).sq_file.size
      · rw [jiq_run_succ_stop K env d m ((ret_at_zero_iff K env d m).mpr hlim)]
        exact ih2
      · have hsz := jiq_print_size K (env m) (jiq_run K env m d) hg hlim
        have hline : (sample_text K (env m) (jiq_run K env m d)).length ≤ M :=
          hl m (by omega) ((ret_at_one_iff K env d m).mpr hlim)
        show (jiq_print K (env m) (jiq_run K env m d)).data.sq_file.size ≤ _
        rw [hsz]
        by_cases hz : (jiq_run K env m d).sq_file.size = 0
        · simp only [hz, if_true]
          omega
        · simp only [hz, if_false]
          omega
  refine ⟨key n (le_refl n), ?_, ?_⟩
  · intro fuel r hfuel hrun
    obtain ⟨m, hm, hcont, hstop⟩ := run_loop_stop K (jiq_print_wq K) work_queued
      (fun c d => by rw [jiq_print_wq_eq]) (work_queued_iff K) env d fuel r hrun
    have hspec := run_wq_spec K env d m hcont hstop fuel
    rw [if_pos hm, hrun] at hspec
    have hr : r.1 = jiq_run K env m d := by
      have := Option.some.inj hspec
      rw [this]
    rw [hr]
    exact key m (by omega)
  · intro fuel r hfuel hrun
    obtain ⟨m, hm, hcont, hstop⟩ := run_loop_stop K (jiq_print_tasklet K) tasklet_queued
      (fun c d => by rw [jiq_print_tasklet_eq]) (tasklet_queued_iff K) env d fuel r hrun
    have hspec := run_tasklet_spec K env d m hcont hstop fuel
    rw [if_pos hm, hrun] at hspec
    have hr : r.1 = jiq_run K env m d := by
      have := Option.some.inj hspec
      rw [this]
    rw [hr]
    exact key m (by omega)


/-- C3: when every write of at least one byte grows the size and appends its
chunk, a run of one or more `jiq_print` invocations over an empty buffer leaves
a buffer that begins with the header; the first invocation writes the header
immediately followed by its sample line, and every later invocation writes
nothing or its sample line alone. The work-queue, delayed work-queue and
tasklet sessions end with the header followed by their sample lines, and every
state of a timer session holds the header followed by one or two sample
lines. -/
theorem header_exactly_once (K : Kernel) (env : Nat → Ctx) (file : seq_file)
    (hs : GrowsSome K.seq_printf) (ha : Appends K.seq_printf)
    (h0 : file.size = 0) (hb : file.buf = []) :
    (∀ d n, d.sq_file = file → 1 ≤ n →
      (∃ m, 1 ≤ m ∧ m ≤ n ∧
        (jiq_run K env n d).sq_file.buf = header :: (List.range m).map (line_at K env d) ∧
        (jiq_run K env n d).sq_file.buf.flatten =
          header ++ ((List.range m).map (line_at K env d)).flatten) ∧
      (jiq_run K env 1 d).sq_file.buf = [header, line_at K env d 0] ∧
      ((jiq_run K env (n + 1) d).sq_file.buf = (jiq_run K env n d).sq_file.buf ∨
        (jiq_run K env (n + 1) d).sq_file.buf =
          (jiq_run K env n d).sq_file.buf ++ [line_at K env d n])) ∧
    (∀ fuel delay now jd r, jiqwq_show K env fuel delay now file jd = some r →
      ∃ m, 1 ≤ m ∧ r.2.1.sq_file.buf =
        header :: (List.range m).map (line_at K env (jiqwq_show_arm K delay now file jd).1)) ∧
    (∀ fuel delay now jd r, jiqwqdelayed_show K env fuel delay now file jd = some r →
      ∃ m, 1 ≤ m ∧ r.2.1.sq_file.buf =
        header ::
          (List.range m).map (line_at K env (jiqwqdelayed_show_arm K delay now file jd).1)) ∧
    (∀ fuel delay now jd r, jiqtasklet_show K env fuel delay now file jd = some r →
      ∃ m, 1 ≤ m ∧ r.2.1.sq_file.buf =
        header ::
          (List.range m).map (line_at K env (jiqtasklet_show_arm K delay now file jd).1)) ∧
    (∀ delay now now2 c jd acts s,
      timer_exec K acts (jiqruntimer_show_arm K delay now now2 c file jd) = some s →
      s.data.sq_file.buf =
          [header, sample_text K c
            { jd with jiffies := now % 2 ^ K.BITS_PER_LONG, sq_file := file }] ∨
      ∃ c2, s.data.sq_file.buf =
          [header,
            sample_text K c { jd with jiffies := now % 2 ^ K.BITS_PER_LONG, sq_file := file },
            sample_text K c2
              (jiq_print K c
                { jd with jiffies := now % 2 ^ K.BITS_PER_LONG, sq_file := file }).data]) := by
  refine ⟨?_, ?_, ?_, ?_, ?_⟩
  · intro d n hd hn
    have hd0 : d.sq_file.size = 0 := by rw [hd]; exact h0
    have hdb : d.sq_file.buf = [] := by rw [hd]; exact hb
    refine ⟨?_, ?_, ?_⟩
    · obtain ⟨m, hm1, hmn, _, _, hbuf⟩ := run_from_empty K env d hs ha hd0 hdb n hn
      refine ⟨m, hm1, hmn, hbuf, ?_⟩
      rw [hbuf, List.flatten_cons]
    · obtain ⟨m, hm1, hmn, _, _, hbuf⟩ := run_from_empty K env d hs ha hd0 hdb 1 (le_refl 1)
      have hm : m = 1 := by omega
      subst hm
      rw [hbuf]
      rfl
    · obtain ⟨m, hm1, _, hrun, hcont, _⟩ := run_from_empty K env d hs ha hd0 hdb n hn
      have hpos : 0 < (jiq_run K env n d).sq_file.size := by
        rw [hrun]
        exact (jiq_run_buf K env d hs ha m hcont).2 hm1
      have hne : (jiq_run K env n d).sq_file.size ≠ 0 := Nat.pos_iff_ne_zero.mp hpos
      rcases jiq_run_succ_buf K env d ha n with h | h
      · exact Or.inl h
      · right
        rw [h, if_neg hne, List.append_nil]
  · intro fuel delay now jd r h
    obtain ⟨q, hq, _, hr, _⟩ := jiqwq_show_some K env fuel delay now file jd r h
    obtain ⟨n, _, hcont, hstop, hqe⟩ := run_wq_data K env fuel _ q hq
    obtain ⟨hn, hbuf⟩ := stopped_run_buf K env (jiqwq_show_arm K delay now file jd).1 hs ha
      h0 hb n hcont hstop
    refine ⟨n, hn, ?_⟩
    rw [hr, hqe]
    exact hbuf
  · intro fuel delay now jd r h
    obtain ⟨q, hq, _, hr, _⟩ := jiqwqdelayed_show_some K env fuel delay now file jd r h
    obtain ⟨n, _, hcont, hstop, hqe⟩ := run_wq_data K env fuel _ q hq
    obtain ⟨hn, hbuf⟩ := stopped_run_buf K env (jiqwqdelayed_show_arm K delay now file jd).1
      hs ha h0 hb n hcont hstop
    refine ⟨n, hn, ?_⟩
    rw [hr, hqe]
    exact hbuf
  · intro fuel delay now jd r h
    obtain ⟨q, hq, _, hr, _⟩ := jiqtasklet_show_some K env fuel delay now file jd r h
    obtain ⟨n, _, hcont, hstop, hqe⟩ := run_tasklet_data K env fuel _ q hq
    obtain ⟨hn, hbuf⟩ := stopped_run_buf K env (jiqtasklet_show_arm K delay now file jd).1
      hs ha h0 hb n hcont hstop
    refine ⟨n, hn, ?_⟩
    rw [hr, hqe]
    exact hbuf
  · intro delay now now2 c jd acts s h
    have hlim : ¬ LIMIT K < file.size := by rw [h0]; exact Nat.not_lt_zero _
    have hfirst : (jiq_print K c
        { jd with jiffies := now % 2 ^ K.BITS_PER_LONG, sq_file := file }).data.sq_file.buf =
        [header, sample_text K c
          { jd with jiffies := now % 2 ^ K.BITS_PER_LONG, sq_file := file }] := by
      rw [jiq_print_buf K c _ ha hlim]
      show file.buf ++ (if file.size = 0 then [header] else []) ++ _ = _
      rw [hb, h0]
      rfl
    have hpos : 0 < (jiq_print K c
        { jd with jiffies := now % 2 ^ K.BITS_PER_LONG, sq_file := file }).data.sq_file.size :=
      Nat.lt_of_le_of_lt (Nat.zero_le _) (jiq_print_size_pos K c _ hs hlim)
    obtain ⟨_, hdata, _, _, _⟩ := timer_exec_inv K acts _ s h
      (jiqruntimer_show_arm_inv K delay now now2 c file jd)
    rcases hdata with hd | ⟨c2, _, hd⟩
    · left
      rw [hd]
      exact hfirst
    · have hd2 : s.data = (jiq_print K c2 (jiq_print K c
          { jd with jiffies := now % 2 ^ K.BITS_PER_LONG, sq_file := file }).data).data := hd
      by_cases hl2 : LIMIT K < (jiq_print K c
          { jd with jiffies := now % 2 ^ K.BITS_PER_LONG, sq_file := file }).data.sq_file.size
      · left
        rw [hd2, jiq_print_stop K c2 _ hl2]
        exact hfirst
      · right
        refine ⟨c2, ?_⟩
        rw [hd2, jiq_print_buf K c2 _ ha hl2, hfirst, if_neg (Nat.pos_iff_ne_zero.mp hpos)]
        rfl


/-- C4: when every write of at least one byte grows the size and appends its
chunk, then for every initial buffer there is a first invocation that stops,
numbered `n ≤ LIMIT + 1`; given fuel for `n + 1` invocations the work-queue
loop and the tasklet loop both end there, after `n` continuing invocations; the
buffer then holds what it held before, the header if it was empty, and exactly
`n` sample lines, which are all its sample lines when it started empty; and
`n` is determined by `LIMIT`, the initial size and the line lengths. -/
theorem producers_terminate (K : Kernel) (env : Nat → Ctx) (d : clientdata)
    (hs : GrowsSome K.seq_printf) (ha : Appends K.seq_printf) :
    ∃ n, n ≤ LIMIT K + 1 ∧ (∀ i, i < n → ret_at K env d i = 1) ∧ ret_at K env d n = 0 ∧
      (∀ fuel, n + 1 ≤ fuel →
        ∃ tr, run_wq K env fuel d = some (jiq_run K env n d, tr) ∧ tr.length = n + 1) ∧
      (∀ fuel, n + 1 ≤ fuel →
        ∃ tr, run_tasklet K env fuel d = some (jiq_run K env n d, tr) ∧ tr.length = n + 1) ∧
      (jiq_run K env n d).sq_file.buf =
        d.sq_file.buf ++ (if d.sq_file.size = 0 then [header] else []) ++
          (List.range n).map (line_at K env d) ∧
      ((List.range n).map (line_at K env d)).length = n ∧
      (d.sq_file.buf = [] → d.sq_file.size = 0 →
        (jiq_run K env n d).sq_file.buf.tail.length = n) ∧
      (∀ (K2 : Kernel) (env2 : Nat → Ctx) (d2 : clientdata) (n2 : Nat),
        GrowsByBytes K.seq_printf → GrowsByBytes K2.seq_printf → LIMIT K2 = LIMIT K →
        d2.sq_file.size = d.sq_file.size →
        (∀ k, k < n → (line_at K2 env2 d2 k).length = (line_at K env d k).length) →
        (∀ i, i < n2 → ret_at K2 env2 d2 i = 1) → ret_at K2 env2 d2 n2 = 0 → n2 = n) := by
  obtain ⟨n, hn, hcont, hstop⟩ := exists_stop K env d hs
  refine ⟨n, hn, hcont, hstop, ?_, ?_, ?_, ?_, ?_, ?_⟩
  · intro fuel hf
    have h := run_wq_spec K env d n hcont hstop fuel
    rw [if_pos hf] at h
    exact ⟨_, h, by simp⟩
  · intro fuel hf
    have h := run_tasklet_spec K env d n hcont hstop fuel
    rw [if_pos hf] at h
    exact ⟨_, h, by simp⟩
  · rw [(jiq_run_buf K env d hs ha n hcont).1]
    by_cases hz : d.sq_file.size = 0
    · have hpos : 0 < n := by
        rcases Nat.eq_zero_or_pos n with h | h
        · subst h
          have h1 := (ret_at_zero_iff K env d 0).mp hstop
          have h2 : jiq_run K env 0 d = d := rfl
          rw [h2, hz] at h1
          exact absurd h1 (Nat.not_lt_zero _)
        · exact h
      simp [hz, hpos]
    · simp [hz]
  · simp
  · intro hb hz
    rw [(stopped_run_buf K env d hs ha hz hb n hcont hstop).2]
    simp
  · intro K2 env2 d2 n2 hg hg2 hL h0 hl hcont2 hstop2
    have hsz : ∀ m, m ≤ n →
        (jiq_run K2 env2 m d2).sq_file.size = (jiq_run K env m d).sq_file.size :=
      fun m hm => sizes_agree K K2 env env2 d d2 hg hg2 hL h0 m (fun k hk => hl k (by omega))
    rcases Nat.lt_trichotomy n2 n with hlt | heq | hgt
    · exfalso
      have h1 := (ret_at_zero_iff K2 env2 d2 n2).mp hstop2
      have h2 := (ret_at_one_iff K env d n2).mp (hcont n2 hlt)
      rw [hL, hsz n2 (Nat.le_of_lt hlt)] at h1
      exact h2 h1
    · exact heq
    · exfalso
      have h1 := (ret_at_one_iff K2 env2 d2 n).mp (hcont2 n hgt)
      have h2 := (ret_at_zero_iff K env d n).mp hstop
      rw [hL, hsz n (le_refl n)] at h1
      exact h1 h2

/-- C5, amended: with `LIMIT` equal to 896, the header 42 bytes long (as the
literal is), every sample line 40 bytes long and an empty buffer, `jiq_print`
continues on its first 22 invocations and stops on the 23rd; the buffer then
holds 23 chunks (the header and 22 samples) and 922 bytes, and the work-queue
loop and the tasklet loop both end after 23 invocations with that buffer. -/
theorem scenario_896 (K : Kernel) (env : Nat → Ctx) (d : clientdata)
    (hg : GrowsByBytes K.seq_printf) (ha : Appends K.seq_printf) (hL : LIMIT K = 896)
    (hl : ∀ k, k < 22 → (line_at K env d k).length = 40)
    (h0 : d.sq_file.size = 0) (hb : d.sq_file.buf = []) :
    header.length = 42 ∧
    (∀ k, k < 22 → ret_at K env d k = 1) ∧ ret_at K env d 22 = 0 ∧
    (jiq_run K env 23 d).sq_file.buf = header :: (List.range 22).map (line_at K env d) ∧
    (jiq_run K env 23 d).sq_file.buf.length = 23 ∧
    (jiq_run K env 23 d).sq_file.size = 922 ∧
    (∀ fuel, 23 ≤ fuel →
      ∃ tr, run_wq K env fuel d = some (jiq_run K env 23 d, tr) ∧ tr.length = 23) ∧
    (∀ fuel, 23 ≤ fuel →
      ∃ tr, run_tasklet K env fuel d = some (jiq_run K env 23 d, tr) ∧ tr.length = 23) := by
  obtain ⟨hcont, hsize⟩ := uniform_sizes K env d 40 hg h0 22 hl
    (fun k _ hk => by rw [hL]; omega)
  have hsz : (jiq_run K env 22 d).sq_file.size = 922 := hsize (by decide)
  have hstop : ret_at K env d 22 = 0 := by
    rw [ret_at_zero_iff, hsz, hL]
    decide
  have h23 : jiq_run K env 23 d = jiq_run K env 22 d := jiq_run_succ_stop K env d 22 hstop
  have hbuf := (stopped_run_buf K env d (growsSome_of_growsByBytes _ hg) ha h0 hb 22
    hcont hstop).2
  refine ⟨header_length, hcont, hstop, ?_, ?_, ?_, ?_, ?_⟩
  · rw [h23]; exact hbuf
  · rw [h23, hbuf]; simp
  · rw [h23]; exact hsz
  · intro fuel hf
    have h := run_wq_spec K env d 22 hcont hstop fuel
    rw [if_pos hf, ← h23] at h
    exact ⟨_, h, by simp⟩
  · intro fuel hf
    have h := run_tasklet_spec K env d 22 hcont hstop fuel
    rw [if_pos hf, ← h23] at h
    exact ⟨_, h, by simp⟩

/-- C5, as stated, fails: in the scenario with `LIMIT` 896, 40-byte sample
lines and an empty buffer the header is 42 bytes long, not 40, and the buffer
ends with 922 bytes, not 920. -/
theorem limit_896_leaves_922 :
    LIMIT K896 = 896 ∧ data0.sq_file.size = 0 ∧
    (∀ k, k < 22 → (line_at K896 env40 data0 k).length = 40) ∧
    header.length ≠ 40 ∧
    (jiq_run K896 env40 23 data0).sq_file.size = 922 ∧
    (jiq_run K896 env40 23 data0).sq_file.size ≠ 920 := by
  decide


/-- C6: one execution of `jiq_print_wq` issues exactly one kernel call. If the
sampler returned continue it is a re-arm, `schedule_delayed_work` with
`data->delay` when that is non-zero and `schedule_work` when it is zero, and
the wait queue is not signalled; if the sampler returned stop it is the
wake-up of `jiq_wait` and there is no re-arm. `data->delay` is unchanged by the
execution and along any run. -/
theorem jiq_print_wq_policy (K : Kernel) (c : Ctx) (data : clientdata) :
    (jiq_print_wq K c data).2 =
      (if (jiq_print K c data).ret = 0 then [Event.wake_up_interruptible]
       else if data.delay ≠ 0 then [Event.schedule_delayed_work data.delay]
       else [Event.schedule_work]) ∧
    ((jiq_print K c data).ret = 0 ∨ (jiq_print K c data).ret = 1) ∧
    (jiq_print_wq K c data).1.delay = data.delay ∧
    (∀ (env : Nat → Ctx) (n : Nat), (jiq_run K env n data).delay = data.delay) := by
  refine ⟨?_, ?_, ?_, fun env n => jiq_run_delay K env data n⟩
  · rw [jiq_print_wq_eq]
    by_cases h : (jiq_print K c data).ret = 0
    · simp [h]
    · by_cases hd : data.delay = 0
      · simp [h, hd]
      · simp [h, hd]
  · rcases jiq_print_ret_cases K c data with h | h
    · exact Or.inl h.1
    · exact Or.inr h.1
  · rw [jiq_print_wq_eq]
    exact jiq_print_delay K c data

/-- C8: in every state a timer session reaches, `add_timer` has been called
exactly once and the timer has fired at most once; the callback `jiq_timedout`
runs the sampler once, then wakes `jiq_wait` whatever the sampler returned, and
never arms the timer. Once the reader has returned, `del_timer_sync` was the
last call made, the timer is not pending, no transition is enabled, and so the
client data (report buffer and last sample time) stays as it is. -/
theorem timer_session_cancel (K : Kernel) (delay : Int) (now now2 : Nat) (c : Ctx)
    (file : seq_file) (jd : clientdata) (acts : List Action) (s : TimerSys)
    (h : timer_exec K acts (jiqruntimer_show_arm K delay now now2 c file jd) = some s) :
    s.trace.countP is_add_timer = 1 ∧
    acts.countP is_fire ≤ 1 ∧
    (∀ c2 d, (jiq_timedout K c2 d).1 = (jiq_print K c2 d).data ∧
      (jiq_timedout K c2 d).2 = (jiq_print K c2 d).events ++ [Event.wake_up_interruptible] ∧
      (jiq_timedout K c2 d).2.countP is_add_timer = 0) ∧
    (s.pc = Pc.returned →
      s.pending = false ∧ s.trace.getLast? = some Event.del_timer_sync ∧
      (∀ a, timer_step K a s = none) ∧
      (∀ acts2 s2, timer_exec K acts2 s = some s2 → s2 = s)) := by
  obtain ⟨hinv, _, _, hfire, _⟩ := timer_exec_inv K acts _ s h
    (jiqruntimer_show_arm_inv K delay now now2 c file jd)
  refine ⟨hinv.1, ?_, ?_, ?_⟩
  · have h1 : (if (jiqruntimer_show_arm K delay now now2 c file jd).pending = true
        then 1 else 0) = 1 := rfl
    rw [h1] at hfire
    exact hfire
  · intro c2 d
    refine ⟨rfl, rfl, ?_⟩
    show ((jiq_print K c2 d).events ++ [Event.wake_up_interruptible]).countP is_add_timer = 0
    rw [List.countP_append, jiq_print_no_add_timer]
    rfl
  · intro hpc
    refine ⟨(hinv.2 hpc).1, (hinv.2 hpc).2, fun a => timer_step_returned K a s hinv hpc, ?_⟩
    intro acts2 s2 h2
    exact (timer_exec_inv K acts2 s s2 h2 hinv).2.2.2.2 hpc

/-- C9, amended: the delayed work-queue session arms its first execution with
`schedule_delayed_work` after the delay parameter and stores it as the re-arm
delay; the immediate work-queue session, the tasklet session and the timer
session do not depend on the delay parameter, and the timer is armed to expire
at the time read plus `HZ`. -/
theorem delay_routing (K : Kernel) (delay : Int) (now now2 : Nat) (c : Ctx)
    (file : seq_file) (jd : clientdata) :
    (jiqwqdelayed_show_arm K delay now file jd).2 =
      [Event.prepare_to_wait, Event.schedule_delayed_work delay, Event.schedule] ∧
    (jiqwqdelayed_show_arm K delay now file jd).1.delay = delay ∧
    jiqwq_show_arm K delay now file jd = jiqwq_show_arm K 0 now file jd ∧
    (jiqwq_show_arm K delay now file jd).2 =
      [Event.prepare_to_wait, Event.schedule_work, Event.schedule] ∧
    (jiqwq_show_arm K delay now file jd).1.delay = 0 ∧
    jiqtasklet_show_arm K delay now file jd = jiqtasklet_show_arm K 0 now file jd ∧
    (jiqtasklet_show_arm K delay now file jd).2 =
      [Event.tasklet_schedule, Event.interruptible_sleep_on] ∧
    (jiqtasklet_show_arm K delay now file jd).1.delay = jd.delay ∧
    jiqruntimer_show_arm K delay now now2 c file jd =
      jiqruntimer_show_arm K 0 now now2 c file jd ∧
    (jiqruntimer_show_arm K delay now now2 c file jd).trace =
      [Event.init_timer] ++
        (jiq_print K c
          { jd with jiffies := now % 2 ^ K.BITS_PER_LONG, sq_file := file }).events ++
        [Event.add_timer ((now2 % 2 ^ K.BITS_PER_LONG + K.HZ) % 2 ^ K.BITS_PER_LONG)] ∧
    (jiqruntimer_show_arm K delay now now2 c file jd).data.delay = jd.delay :=
  ⟨rfl, rfl, rfl, rfl, rfl, rfl, rfl, rfl, rfl, rfl, jiq_print_delay K c _⟩

/-- C9, as stated, fails for the timer session: with the delay parameter 1,
`HZ` 100 and the clock at 5000 the timer is armed for 5100, not for 5001. -/
theorem timer_ignores_delay :
    (jiqruntimer_show_arm K64 1 5000 5000 (env40 0) file0 data0).trace =
      [Event.init_timer, Event.add_timer 5100] ∧
    Event.add_timer (5000 + 1) ∉
      (jiqruntimer_show_arm K64 1 5000 5000 (env40 0) file0 data0).trace := by
  decide

/-- C10: an invocation of `jiq_print` that continues at clock value `j` writes
the sample line whose time field is `j` and whose delta field is
`j - data->jiffies` in `unsigned long` arithmetic, and then stores `j` as the
last sample time. That difference is below `2^w`, congruent to the integer
difference modulo `2^w`, equal to the ticks elapsed also across a wrap of the
clock, and printed unchanged when below `2^(w-1)` (always congruent to it
modulo `2^w`). An invocation that stops
leaves the client data unchanged. In a run, the first line's delta is taken
from the initial `data->jiffies`, which every show routine sets to the time
read at session start, and a later line's delta from the clock value of the
invocation before it. -/
theorem delta_bookkeeping (K : Kernel) (c : Ctx) (data : clientdata) :
    ((jiq_print K c data).ret = 1 →
      (jiq_print K c data).data.sq_file =
        K.seq_printf
          (if data.sq_file.size = 0 then K.seq_printf data.sq_file header else data.sq_file)
          (sample_line (toSigned K.BITS_PER_LONG (c.jiffies % 2 ^ K.BITS_PER_LONG))
            (toSigned K.BITS_PER_LONG
              (usub K.BITS_PER_LONG (c.jiffies % 2 ^ K.BITS_PER_LONG) data.jiffies))
            c.preempt_count c.pid c.cpu c.comm) ∧
      (jiq_print K c data).data.jiffies = c.jiffies % 2 ^ K.BITS_PER_LONG) ∧
    usub K.BITS_PER_LONG (c.jiffies % 2 ^ K.BITS_PER_LONG) data.jiffies <
      2 ^ K.BITS_PER_LONG ∧
    ((usub K.BITS_PER_LONG (c.jiffies % 2 ^ K.BITS_PER_LONG) data.jiffies : Nat) : Int) ≡
      ((c.jiffies % 2 ^ K.BITS_PER_LONG : Nat) : Int) - (data.jiffies : Int)
      [ZMOD ((2 ^ K.BITS_PER_LONG : Nat) : Int)] ∧
    (∀ t e, e < 2 ^ K.BITS_PER_LONG →
      usub K.BITS_PER_LONG ((t + e) % 2 ^ K.BITS_PER_LONG) (t % 2 ^ K.BITS_PER_LONG) = e) ∧
    (∀ x, x < 2 ^ (K.BITS_PER_LONG - 1) → toSigned K.BITS_PER_LONG x = x) ∧
    (∀ x, toSigned K.BITS_PER_LONG x ≡ (x : Int) [ZMOD ((2 ^ K.BITS_PER_LONG : Nat) : Int)]) ∧
    ((jiq_print K c data).ret = 0 → (jiq_print K c data).data = data) ∧
    (∀ (env : Nat → Ctx) (d : clientdata),
      line_at K env d 0 =
        sample_line (toSigned K.BITS_PER_LONG ((env 0).jiffies % 2 ^ K.BITS_PER_LONG))
          (toSigned K.BITS_PER_LONG
            (usub K.BITS_PER_LONG ((env 0).jiffies % 2 ^ K.BITS_PER_LONG) d.jiffies))
          (env 0).preempt_count (env 0).pid (env 0).cpu (env 0).comm) ∧
    (∀ (env : Nat → Ctx) (d : clientdata) (k : Nat), ret_at K env d k = 1 →
      line_at K env d (k + 1) =
        sample_line (toSigned K.BITS_PER_LONG ((env (k + 1)).jiffies % 2 ^ K.BITS_PER_LONG))
          (toSigned K.BITS_PER_LONG
            (usub K.BITS_PER_LONG ((env (k + 1)).jiffies % 2 ^ K.BITS_PER_LONG)
              ((env k).jiffies % 2 ^ K.BITS_PER_LONG)))
          (env (k + 1)).preempt_count (env (k + 1)).pid (env (k + 1)).cpu
          (env (k + 1)).comm) ∧
    (∀ (delay : Int) (now now2 : Nat) (c2 : Ctx) (file : seq_file) (jd : clientdata),
      (jiqwq_show_arm K delay now file jd).1.jiffies = now % 2 ^ K.BITS_PER_LONG ∧
      (jiqwqdelayed_show_arm K delay now file jd).1.jiffies = now % 2 ^ K.BITS_PER_LONG ∧
      (jiqtasklet_show_arm K delay now file jd).1.jiffies = now % 2 ^ K.BITS_PER_LONG ∧
      (jiqruntimer_show_arm K delay now now2 c2 file jd).data =
        (jiq_print K c2
          { jd with jiffies := now % 2 ^ K.BITS_PER_LONG, sq_file := file }).data) := by
  refine ⟨?_, usub_lt _ _ _, usub_modEq _ _ _, fun t e he => usub_wrap _ t e he,
    fun x hx => toSigned_small _ x hx, fun x => toSigned_modEq _ x, ?_, fun env d => rfl, ?_,
    fun delay now now2 c2 file jd => ⟨rfl, rfl, rfl, rfl⟩⟩
  · intro h
    have hlim := (jiq_print_ret_one_iff K c data).mp h
    rw [jiq_print_cont K c data hlim]
    exact ⟨rfl, rfl⟩
  · intro h
    have hlim := (jiq_print_ret_zero_iff K c data).mp h
    rw [jiq_print_stop K c data hlim]
  · intro env d k h
    have hlim := (ret_at_one_iff K env d k).mp h
    have hj : (jiq_run K env (k + 1) d).jiffies = (env k).jiffies % 2 ^ K.BITS_PER_LONG := by
      show (jiq_print K (env k) (jiq_run K env k d)).data.jiffies = _
      rw [jiq_print_cont K (env k) _ hlim]
    show sample_text K (env (k + 1)) (jiq_run K env (k + 1) d) = _
    unfold sample_text
    rw [hj]


/-! ### The theorems at concrete runs -/

/-- C2 at a concrete run: three invocations on the 64-bit kernel over an empty
buffer, with lines of at most 42 bytes. -/
theorem jiq_run_size_le_witness :
    GrowsByBytes K64.seq_printf ∧ header.length ≤ 42 ∧
    (∀ k, k < 3 → ret_at K64 env40 data0 k = 1 → (line_at K64 env40 data0 k).length ≤ 42) ∧
    42 ≤ LIMIT K64 ∧
    data0.sq_file.size = 0 ∧
    (jiq_run K64 env40 3 data0).sq_file.size ≤ LIMIT K64 + 42 :=
  ⟨seq_append_growsByBytes, by decide, by decide, by decide, rfl,
    (jiq_run_size_le K64 env40 data0 42 3 seq_append_growsByBytes (by decide) (by decide)
      (by decide) rfl).1⟩

/-- C3 at a concrete run: the first invocation over the empty file writes the
header and then its sample line. -/
theorem header_exactly_once_witness :
    GrowsSome K64.seq_printf ∧ Appends K64.seq_printf ∧ file0.size = 0 ∧ file0.buf = [] ∧
    (jiq_run K64 env40 1 data0).sq_file.buf = [header, line_at K64 env40 data0 0] :=
  ⟨seq_append_growsSome, seq_append_appends, rfl, rfl,
    ((header_exactly_once K64 env40 file0 seq_append_growsSome seq_append_appends rfl rfl).1
      data0 2 rfl (by decide)).2.1⟩

/-- C4 at a concrete run: on the 64-bit kernel some invocation stops. -/
theorem producers_terminate_witness :
    GrowsSome K64.seq_printf ∧ Appends K64.seq_printf ∧
    ∃ n, n ≤ LIMIT K64 + 1 ∧ ret_at K64 env40 data0 n = 0 :=
  ⟨seq_append_growsSome, seq_append_appends,
    (producers_terminate K64 env40 data0 seq_append_growsSome seq_append_appends).imp
      (fun _ h => ⟨h.1, h.2.2.1⟩)⟩

/-- C5 at the concrete 896-byte scenario with the one-tick clock. -/
theorem scenario_896_witness :
    GrowsByBytes K896.seq_printf ∧ Appends K896.seq_printf ∧ LIMIT K896 = 896 ∧
    (∀ k, k < 22 → (line_at K896 env40 data0 k).length = 40) ∧
    data0.sq_file.size = 0 ∧ data0.sq_file.buf = [] ∧
    ret_at K896 env40 data0 22 = 0 ∧
    (jiq_run K896 env40 23 data0).sq_file.buf.length = 23 ∧
    (jiq_run K896 env40 23 data0).sq_file.size = 922 :=
  ⟨seq_append_growsByBytes, seq_append_appends, by decide, by decide, rfl, rfl,
    (scenario_896 K896 env40 data0 seq_append_growsByBytes seq_append_appends (by decide)
      (by decide) rfl rfl).2.2.1,
    (scenario_896 K896 env40 data0 seq_append_growsByBytes seq_append_appends (by decide)
      (by decide) rfl rfl).2.2.2.2.1,
    (scenario_896 K896 env40 data0 seq_append_growsByBytes seq_append_appends (by decide)
      (by decide) rfl rfl).2.2.2.2.2.1⟩

/-- C8 at a concrete session: the reader sleeps, the timer fires, the reader
cancels and returns. -/
theorem timer_session_cancel_witness :
    ∃ s, timer_exec K64 [Action.sleep, Action.fire (env40 1), Action.cancel]
        (jiqruntimer_show_arm K64 1 1000 1000 (env40 0) file0 data0) = some s ∧
      s.trace.countP is_add_timer = 1 := by
  obtain ⟨s, hs⟩ := Option.isSome_iff_exists.mp
    (by decide : (timer_exec K64 [Action.sleep, Action.fire (env40 1), Action.cancel]
      (jiqruntimer_show_arm K64 1 1000 1000 (env40 0) file0 data0)).isSome = true)
  exact ⟨s, hs, (timer_session_cancel K64 1 1000 1000 (env40 0) file0 data0 _ s hs).1⟩

/-- C10 at a concrete invocation: the first sample at clock 1001 after a
session start at 1000. -/
theorem delta_bookkeeping_witness :
    (jiq_print K64 (env40 0) data0).ret = 1 ∧
    (jiq_print K64 (env40 0) data0).data.jiffies = 1001 ∧
    usub 64 1001 1000 = 1 :=
  ⟨by decide, ((delta_bookkeeping K64 (env40 0) data0).1 (by decide)).2, by decide⟩


end Jiq
